import Mathlib

/-!
Verification of the tiny-parquet primitive codec.

Shallow embedding of the two Rust crates `parquet-reader` and
`parquet-writer` (files `src/parquet-reader/src/lib.rs` and
`src/parquet-writer/src/lib.rs`).

Modelling conventions:
* Byte buffers (Rust `u8` slices and vectors) are `List Nat`; every read of
  a byte reduces it modulo 256, reflecting the `u8` representation, so all
  definitions are total over arbitrary naturals.
* 32 and 64 bit IEEE floats are carried as their bit patterns (`Nat` below
  `2^32` and `2^64`); the codec only moves their bytes, and the host-boundary
  widening `f32 -> f64` is exact and injective, so bit-pattern equality is
  the faithful notion of value equality for the codec layer.
* The `i64 -> f64` widening at the host boundary is exact on `[-2^53, 2^53]`;
  theorems about decoded 64-bit integers restrict to that range where the
  spec's round-trip claim excludes the lossy cases.
* JavaScript host values (`wasm_bindgen::JsValue`) are modelled by the
  inductive `JSValue`; numbers are modelled by their integer values
  (integer-valued doubles), which suffices for the defaulting/coercion
  claims.
-/

namespace TinyParquet

/-! ## Byte-level helpers -/

/-- Little-endian value of a byte list (each entry read modulo 256),
as in `u32::from_le_bytes` / `i64::from_le_bytes` composition. -/
def leBytesToNat : List Nat → Nat
  | [] => 0
  | b :: bs => b % 256 + 256 * leBytesToNat bs

/-- `w`-byte little-endian encoding of `x` (modulo `2^(8*w)`), as in
`to_le_bytes` on the various fixed-width Rust integer types. -/
def natToLeBytes : Nat → Nat → List Nat
  | 0, _ => []
  | w + 1, x => x % 256 :: natToLeBytes w (x / 256)

/-! ## Type mapper: reader direction (`type_label` in parquet-reader) -/

/-- `parquet2::schema::types::TimeUnit`. -/
inductive TimeUnit
  | milliseconds
  | microseconds
  | nanoseconds
  deriving DecidableEq, Repr

/-- `parquet2::schema::types::IntegerType`. -/
inductive IntegerType
  | int8 | int16 | int32 | int64
  | uint8 | uint16 | uint32 | uint64
  deriving DecidableEq, Repr

/-- `parquet2::schema::types::PhysicalType`. -/
inductive PhysicalType
  | boolean
  | int32
  | int64
  | int96
  | float
  | double
  | byteArray
  | fixedLenByteArray (n : Nat)
  deriving DecidableEq, Repr

/-- `parquet2::schema::types::PrimitiveLogicalType`. -/
inductive PrimitiveLogicalType
  | string
  | map
  | list
  | enumeration
  | decimal (precision scale : Nat)
  | date
  | time (unit : TimeUnit) (isAdjustedToUtc : Bool)
  | timestamp (unit : TimeUnit) (isAdjustedToUtc : Bool)
  | integer (t : IntegerType)
  | unknown
  | json
  | bson
  | uuid
  deriving DecidableEq, Repr

/-- `type_label` from `parquet-reader/src/lib.rs`: map physical + logical
type to a JS-friendly label.  The match arms are in source order. -/
def type_label (phys : PhysicalType) (logical : Option PrimitiveLogicalType) : String :=
  match phys, logical with
  | .int64, some (.timestamp _ _) => "timestamp"
  | .int32, _ => "int32"
  | .int64, _ => "int64"
  | .float, _ => "float32"
  | .double, _ => "float64"
  | .boolean, _ => "boolean"
  | .byteArray, _ => "string"
  | _, _ => "binary"

/-! ## Type mapper: writer direction (`ColType` in parquet-writer) -/

/-- `ColType` from `parquet-writer/src/lib.rs`. -/
inductive ColType
  | str
  | int32
  | int64
  | float32
  | float64
  | boolean
  | timestampMillis
  deriving DecidableEq, Repr

/-- `ColType::from_str`: JS schema label to column type, case-sensitive,
defaulting to `Str`. -/
def ColType.ofLabel (s : String) : ColType :=
  match s with
  | "int32" => .int32
  | "int64" => .int64
  | "float32" | "float" => .float32
  | "float64" | "double" => .float64
  | "boolean" | "bool" => .boolean
  | "timestamp" | "timestamp_millis" => .timestampMillis
  | _ => .str

/-- `ColType::physical_type`. -/
def ColType.physicalType : ColType → PhysicalType
  | .str => .byteArray
  | .int32 => .int32
  | .int64 | .timestampMillis => .int64
  | .float32 => .float
  | .float64 => .double
  | .boolean => .boolean

/-! ## Decoded values

A decoded value as pushed to the JS output array.  Integers are carried
exactly; floats by their bit patterns; byte-array values by the byte list
of the pushed string. -/

inductive PValue
  | vi32 (v : Int)
  | vi64 (v : Int)
  | vf32 (bits : Nat)
  | vf64 (bits : Nat)
  | vbool (b : Bool)
  | vstr (bytes : List Nat)
  deriving DecidableEq, Repr

/-- `i32::from_le_bytes` (two's complement). -/
def i32FromLeBytes (bs : List Nat) : Int :=
  let u := leBytesToNat bs
  if u < 2 ^ 31 then (u : Int) else (u : Int) - 2 ^ 32

/-- `i64::from_le_bytes` (two's complement). -/
def i64FromLeBytes (bs : List Nat) : Int :=
  let u := leBytesToNat bs
  if u < 2 ^ 63 then (u : Int) else (u : Int) - 2 ^ 64

/-- UTF-8 byte of `<`, `b`, `i`, `n`, `a`, `r`, `y`, `>`: the sentinel
string pushed for invalid UTF-8 byte runs. -/
def binarySentinel : List Nat := [60, 98, 105, 110, 97, 114, 121, 62]

/-- Is `c` (mod 256) a UTF-8 continuation byte (`0x80..0xBF`)? -/
def isCont (c : Nat) : Bool := 128 ≤ c % 256 && c % 256 ≤ 191

/-- UTF-8 validity of a byte list, as decided by `std::str::from_utf8`
(rejecting overlong forms, surrogates and code points above `U+10FFFF`). -/
def validUtf8 : List Nat → Bool
  | [] => true
  | b0 :: rest =>
    let b := b0 % 256
    if b ≤ 127 then validUtf8 rest
    else if 194 ≤ b && b ≤ 223 then
      match rest with
      | c1 :: rest2 => isCont c1 && validUtf8 rest2
      | _ => false
    else if b == 224 then
      match rest with
      | c1 :: c2 :: rest2 =>
        (160 ≤ c1 % 256 && c1 % 256 ≤ 191) && isCont c2 && validUtf8 rest2
      | _ => false
    else if (225 ≤ b && b ≤ 236) || b == 238 || b == 239 then
      match rest with
      | c1 :: c2 :: rest2 => isCont c1 && isCont c2 && validUtf8 rest2
      | _ => false
    else if b == 237 then
      match rest with
      | c1 :: c2 :: rest2 =>
        (128 ≤ c1 % 256 && c1 % 256 ≤ 159) && isCont c2 && validUtf8 rest2
      | _ => false
    else if b == 240 then
      match rest with
      | c1 :: c2 :: c3 :: rest2 =>
        (144 ≤ c1 % 256 && c1 % 256 ≤ 191) && isCont c2 && isCont c3 && validUtf8 rest2
      | _ => false
    else if 241 ≤ b && b ≤ 243 then
      match rest with
      | c1 :: c2 :: c3 :: rest2 =>
        isCont c1 && isCont c2 && isCont c3 && validUtf8 rest2
      | _ => false
    else if b == 244 then
      match rest with
      | c1 :: c2 :: c3 :: rest2 =>
        (128 ≤ c1 % 256 && c1 % 256 ≤ 143) && isCont c2 && isCont c3 && validUtf8 rest2
      | _ => false
    else false

/-! ## The PLAIN decoder (`decode_plain` in parquet-reader)

The fixed-width, boolean and byte-array loops of the source are modelled by
one recursive function each; the loop index `i` (resp. the running offset
`off`) is an explicit argument, and the loop's remaining iteration budget
`n - i` (resp. `n - count`) is the recursion fuel. -/

/-- The fixed-width loop of `decode_plain` (branches `Int32`, `Int64`,
`Float`, `Double`): at index `i`, record `i` occupies bytes
`[i*w, i*w + w)`; if the buffer is too short the loop returns `i`. -/
def decodeFixedAux (buf : List Nat) (w : Nat) (conv : List Nat → PValue) :
    Nat → Nat → List PValue × Nat
  | i, 0 => ([], i)
  | i, k + 1 =>
    if i * w + w ≤ buf.length then
      let r := decodeFixedAux buf w conv (i + 1) k
      (conv ((buf.drop (i * w)).take w) :: r.1, r.2)
    else ([], i)

/-- The `Boolean` loop of `decode_plain`: value `i` is bit `i % 8`
(LSB-first) of byte `i / 8`; if the byte index is out of range the loop
returns `i`. -/
def decodeBoolAux (buf : List Nat) : Nat → Nat → List PValue × Nat
  | i, 0 => ([], i)
  | i, k + 1 =>
    if i / 8 < buf.length then
      let r := decodeBoolAux buf (i + 1) k
      (.vbool ((((buf.getD (i / 8) 0 % 256) >>> (i % 8)) &&& 1) == 1) :: r.1, r.2)
    else ([], i)

/-- The `ByteArray` loop of `decode_plain`: 4-byte little-endian length
followed by that many raw bytes; stops if fewer than 4 bytes remain for the
next length, or the declared length runs past the end.  Invalid UTF-8 runs
are replaced by the sentinel. -/
def decodeBinAux (buf : List Nat) : Nat → Nat → List PValue × Nat
  | _, 0 => ([], 0)
  | off, k + 1 =>
    if off + 4 ≤ buf.length then
      let len := leBytesToNat ((buf.drop off).take 4)
      if off + 4 + len ≤ buf.length then
        let chunk := (buf.drop (off + 4)).take len
        let r := decodeBinAux buf (off + 4 + len) k
        (.vstr (if validUtf8 chunk then chunk else binarySentinel) :: r.1, r.2 + 1)
      else ([], 0)
    else ([], 0)

/-- `decode_plain` from `parquet-reader/src/lib.rs`: decode a PLAIN page
buffer, returning the pushed values and the count the function returns. -/
def decode_plain (buf : List Nat) (phys : PhysicalType) (numVals limit : Nat) :
    List PValue × Nat :=
  let n := min numVals limit
  match phys with
  | .int32 => decodeFixedAux buf 4 (fun bs => .vi32 (i32FromLeBytes bs)) 0 n
  | .int64 => decodeFixedAux buf 8 (fun bs => .vi64 (i64FromLeBytes bs)) 0 n
  | .float => decodeFixedAux buf 4 (fun bs => .vf32 (leBytesToNat bs)) 0 n
  | .double => decodeFixedAux buf 8 (fun bs => .vf64 (leBytesToNat bs)) 0 n
  | .boolean => decodeBoolAux buf 0 n
  | .byteArray => decodeBinAux buf 0 n
  | _ => ([], 0)

/-! ## The PLAIN encoders (parquet-writer) -/

/-- `i32::to_le_bytes` (two's complement little-endian). -/
def i32ToLeBytes (v : Int) : List Nat := natToLeBytes 4 (v % (2 ^ 32 : Int)).toNat

/-- `i64::to_le_bytes` (two's complement little-endian). -/
def i64ToLeBytes (v : Int) : List Nat := natToLeBytes 8 (v % (2 ^ 64 : Int)).toNat

/-- `encode_i32`: concatenated 4-byte little-endian records. -/
def encode_i32 : List Int → List Nat
  | [] => []
  | v :: vs => i32ToLeBytes v ++ encode_i32 vs

/-- `encode_i64`: concatenated 8-byte little-endian records. -/
def encode_i64 : List Int → List Nat
  | [] => []
  | v :: vs => i64ToLeBytes v ++ encode_i64 vs

/-- `encode_f32` on float bit patterns: `f32::to_le_bytes` is the 4-byte
little-endian encoding of the bit pattern. -/
def encode_f32 : List Nat → List Nat
  | [] => []
  | b :: bs => natToLeBytes 4 b ++ encode_f32 bs

/-- `encode_f64` on float bit patterns. -/
def encode_f64 : List Nat → List Nat
  | [] => []
  | b :: bs => natToLeBytes 8 b ++ encode_f64 bs

/-- `b[i / 8] |= 1 << (i % 8)` from `encode_bool`. -/
def setBit8 (b : List Nat) (i : Nat) : List Nat :=
  b.set (i / 8) (b.getD (i / 8) 0 ||| (1 <<< (i % 8)))

/-- The indexed loop of `encode_bool` over the value list. -/
def packLoop : List Nat → List Bool → Nat → List Nat
  | b, [], _ => b
  | b, v :: vs, i => packLoop (if v then setBit8 b i else b) vs (i + 1)

/-- `encode_bool`: a zeroed buffer of `(n + 7) / 8` bytes with bit `i % 8`
of byte `i / 8` set for each true value. -/
def encode_bool (vals : List Bool) : List Nat :=
  packLoop (List.replicate ((vals.length + 7) / 8) 0) vals 0

/-- `encode_binary`: each value as a 4-byte little-endian length
(`v.len() as u32`, i.e. modulo `2^32`) followed by its raw bytes. -/
def encode_binary : List (List Nat) → List Nat
  | [] => []
  | v :: vs => natToLeBytes 4 v.length ++ v ++ encode_binary vs

/-- Concatenation of per-value encoded blocks (proof-side view of the
`extend_from_slice` loops of the encoders). -/
def blockJoin : List (List Nat) → List Nat
  | [] => []
  | b :: bs => b ++ blockJoin bs

/-- Proof-side restatement of the `ByteArray` decode loop that recurses on
the not-yet-consumed buffer suffix instead of carrying an offset; the
bridge `decodeBinAux_eq_list` relates it to the source-shaped loop. -/
def decodeBinList : List Nat → Nat → List PValue × Nat
  | _, 0 => ([], 0)
  | buf, k + 1 =>
    if 4 ≤ buf.length then
      let len := leBytesToNat (buf.take 4)
      if 4 + len ≤ buf.length then
        let chunk := (buf.drop 4).take len
        let r := decodeBinList (buf.drop (4 + len)) k
        (.vstr (if validUtf8 chunk then chunk else binarySentinel) :: r.1, r.2 + 1)
      else ([], 0)
    else ([], 0)

/-! ## Column encoding (the per-column dispatch in `write_parquet`) -/

/-- Payload of an `Int32`-typed value (the typed vector element fed to
`encode_i32`); the claims' typing hypotheses make the default arm dead. -/
def projI32 : PValue → Int
  | .vi32 v => v
  | _ => 0

/-- Payload of an `Int64`/`TimestampMillis`-typed value. -/
def projI64 : PValue → Int
  | .vi64 v => v
  | _ => 0

/-- Payload (bit pattern) of a `Float32`-typed value. -/
def projF32 : PValue → Nat
  | .vf32 b => b
  | _ => 0

/-- Payload (bit pattern) of a `Float64`-typed value. -/
def projF64 : PValue → Nat
  | .vf64 b => b
  | _ => 0

/-- Payload of a `Boolean`-typed value. -/
def projBool : PValue → Bool
  | .vbool b => b
  | _ => false

/-- Payload (UTF-8 bytes) of a `Str`-typed value. -/
def projStr : PValue → List Nat
  | .vstr bs => bs
  | _ => []

/-- The per-column page-body construction of `write_parquet`: dispatch on
the column type to the matching typed encoder. -/
def encodeColumn (t : ColType) (vs : List PValue) : List Nat :=
  match t with
  | .int32 => encode_i32 (vs.map projI32)
  | .int64 | .timestampMillis => encode_i64 (vs.map projI64)
  | .float32 => encode_f32 (vs.map projF32)
  | .float64 => encode_f64 (vs.map projF64)
  | .boolean => encode_bool (vs.map projBool)
  | .str => encode_binary (vs.map projStr)

/-- Spec-side typing of a value sequence of a given `ColumnType`: the
constructor matches the column type, and the payload is in the range the
round-trip claim quantifies over (64-bit integers restricted to the exact
double range, byte-array values to genuine UTF-8 strings below the `u32`
length bound). -/
def okValue : ColType → PValue → Prop
  | .int32, .vi32 v => -(2 ^ 31) ≤ v ∧ v < 2 ^ 31
  | .int64, .vi64 v => -(2 ^ 53) ≤ v ∧ v ≤ 2 ^ 53
  | .timestampMillis, .vi64 v => -(2 ^ 53) ≤ v ∧ v ≤ 2 ^ 53
  | .float32, .vf32 b => b < 2 ^ 32
  | .float64, .vf64 b => b < 2 ^ 64
  | .boolean, .vbool _ => True
  | .str, .vstr bs => validUtf8 bs = true ∧ bs.length < 2 ^ 32 ∧ ∀ b ∈ bs, b < 256
  | _, _ => False

/-- Fuelled worker for `binAvail`; each complete record consumes at least
four buffer bytes, so fuel `buf.length` always suffices. -/
def binAvailAux : Nat → List Nat → Nat
  | 0, _ => 0
  | fuel + 1, buf =>
    if 4 ≤ buf.length then
      let len := leBytesToNat (buf.take 4)
      if 4 + len ≤ buf.length then 1 + binAvailAux fuel (buf.drop (4 + len)) else 0
    else 0

/-- Spec-side count of complete records greedily readable from the front of
a byte-array buffer (mirrors the stopping conditions of the `ByteArray`
decode loop, with no value quota). -/
def binAvail (buf : List Nat) : Nat := binAvailAux buf.length buf

/-- Spec-side count of complete records fully contained in a buffer, per
physical type (used to state the truncation-safety claims). -/
def availRecords : PhysicalType → List Nat → Nat
  | .int32, buf => buf.length / 4
  | .int64, buf => buf.length / 8
  | .float, buf => buf.length / 4
  | .double, buf => buf.length / 8
  | .boolean, buf => 8 * buf.length
  | .byteArray, buf => binAvail buf
  | _, _ => 0

/-! ## Host values and the write-path coercions -/

/-- A JavaScript host value (`wasm_bindgen::JsValue`).  Numbers are
modelled by their integer values (integer-valued doubles); strings by the
UTF-8 bytes of the string; `jsObj` stands for any other object. -/
inductive JSValue
  | undef
  | jsNull
  | jsBool (b : Bool)
  | jsNum (x : Int)
  | jsStr (s : List Nat)
  | jsObj
  deriving DecidableEq, Repr

/-- `JsValue::as_f64`: `Some` exactly when the value is a JS number. -/
def JSValue.asF64 : JSValue → Option Int
  | .jsNum x => some x
  | _ => none

/-- `JsValue::as_string`: `Some` exactly when the value is a JS string. -/
def JSValue.asString : JSValue → Option (List Nat)
  | .jsStr s => some s
  | _ => none

/-- `JsValue::is_truthy`: JS truthiness (`undefined`, `null`, `false`,
`0`, `NaN` and the empty string are falsy; objects are truthy). -/
def JSValue.isTruthy : JSValue → Bool
  | .undef => false
  | .jsNull => false
  | .jsBool b => b
  | .jsNum x => x != 0
  | .jsStr s => !s.isEmpty
  | .jsObj => true

/-- Rust `as i32` on an (integer-valued) double: saturating cast. -/
def f64ToI32 (x : Int) : Int :=
  if x < -(2 ^ 31) then -(2 ^ 31) else if x > 2 ^ 31 - 1 then 2 ^ 31 - 1 else x

/-- Rust `as i64` on an (integer-valued) double: saturating cast. -/
def f64ToI64 (x : Int) : Int :=
  if x < -(2 ^ 63) then -(2 ^ 63) else if x > 2 ^ 63 - 1 then 2 ^ 63 - 1 else x

/-- `arr.get(j).as_f64().unwrap_or(0.0) as i32` from `write_parquet`. -/
def coerceI32 (v : JSValue) : Int := f64ToI32 ((v.asF64).getD 0)

/-- `arr.get(j).as_f64().unwrap_or(0.0) as i64` from `write_parquet`
(also the `TimestampMillis` arm). -/
def coerceI64 (v : JSValue) : Int := f64ToI64 ((v.asF64).getD 0)

/-- `arr.get(j).as_f64().unwrap_or(0.0)` from the `Float64` arm (the
`Float32` arm further narrows, which does not affect the zero default). -/
def coerceF64 (v : JSValue) : Int := (v.asF64).getD 0

/-- `arr.get(j).is_truthy()` from the `Boolean` arm. -/
def coerceBool (v : JSValue) : Bool := v.isTruthy

/-- `arr.get(j).as_string().unwrap_or_default().into_bytes()` from the
`Str` arm. -/
def coerceStr (v : JSValue) : List Nat := (v.asString).getD []

/-! ## The preview aggregator (page loop of `read_parquet`) -/

/-- A decompressed data page: declared value count and raw buffer. -/
structure PageModel where
  numValues : Nat
  buffer : List Nat
  deriving DecidableEq, Repr

/-- The per-column page loop of `read_parquet`: before each page, break if
`total >= limit`; otherwise decode the page with quota `limit - total` and
add the produced count to `total`.  Returns the accumulated values and the
final total. -/
def readPagesAux (phys : PhysicalType) : List PageModel → Nat → Nat → List PValue × Nat
  | [], total, _ => ([], total)
  | p :: ps, total, limit =>
    if limit ≤ total then ([], total)
    else
      let r := decode_plain p.buffer phys p.numValues (limit - total)
      let rest := readPagesAux phys ps (total + r.2) limit
      (r.1 ++ rest.1, rest.2)

/-! ## Instrumented decoder

`decode_plainChecked` mirrors `decode_plain` but performs every byte access
through `List.get?`, propagating `none` on any out-of-range index.  Proving
it always returns `some` of the plain result is the embedding of "every
slice access is preceded by a bounds check": the decoder never reads past
the end of the buffer. -/

/-- Read bytes `[off, off + w)` through `List.get?`; `none` if any index is
out of range. -/
def readBytesChecked (buf : List Nat) : Nat → Nat → Option (List Nat)
  | _, 0 => some []
  | off, w + 1 =>
    match buf.get? off, readBytesChecked buf (off + 1) w with
    | some b, some bs => some (b :: bs)
    | _, _ => none

/-- Checked variant of `decodeFixedAux`. -/
def decodeFixedCheckedAux (buf : List Nat) (w : Nat) (conv : List Nat → PValue) :
    Nat → Nat → Option (List PValue × Nat)
  | i, 0 => some ([], i)
  | i, k + 1 =>
    if i * w + w ≤ buf.length then
      match readBytesChecked buf (i * w) w, decodeFixedCheckedAux buf w conv (i + 1) k with
      | some block, some r => some (conv block :: r.1, r.2)
      | _, _ => none
    else some ([], i)

/-- Checked variant of `decodeBoolAux`. -/
def decodeBoolCheckedAux (buf : List Nat) : Nat → Nat → Option (List PValue × Nat)
  | i, 0 => some ([], i)
  | i, k + 1 =>
    if i / 8 < buf.length then
      match buf.get? (i / 8), decodeBoolCheckedAux buf (i + 1) k with
      | some b, some r => some (.vbool ((((b % 256) >>> (i % 8)) &&& 1) == 1) :: r.1, r.2)
      | _, _ => none
    else some ([], i)

/-- Checked variant of `decodeBinAux`. -/
def decodeBinCheckedAux (buf : List Nat) : Nat → Nat → Option (List PValue × Nat)
  | _, 0 => some ([], 0)
  | off, k + 1 =>
    if off + 4 ≤ buf.length then
      match readBytesChecked buf off 4 with
      | none => none
      | some pre4 =>
        let len := leBytesToNat pre4
        if off + 4 + len ≤ buf.length then
          match readBytesChecked buf (off + 4) len, decodeBinCheckedAux buf (off + 4 + len) k with
          | some chunk, some r =>
            some (.vstr (if validUtf8 chunk then chunk else binarySentinel) :: r.1, r.2 + 1)
          | _, _ => none
        else some ([], 0)
    else some ([], 0)

/-- Checked variant of `decode_plain`. -/
def decode_plainChecked (buf : List Nat) (phys : PhysicalType) (numVals limit : Nat) :
    Option (List PValue × Nat) :=
  let n := min numVals limit
  match phys with
  | .int32 => decodeFixedCheckedAux buf 4 (fun bs => .vi32 (i32FromLeBytes bs)) 0 n
  | .int64 => decodeFixedCheckedAux buf 8 (fun bs => .vi64 (i64FromLeBytes bs)) 0 n
  | .float => decodeFixedCheckedAux buf 4 (fun bs => .vf32 (leBytesToNat bs)) 0 n
  | .double => decodeFixedCheckedAux buf 8 (fun bs => .vf64 (leBytesToNat bs)) 0 n
  | .boolean => decodeBoolCheckedAux buf 0 n
  | .byteArray => decodeBinCheckedAux buf 0 n
  | _ => some ([], 0)

/-! ## Byte-level lemmas -/

theorem length_natToLeBytes (w x : Nat) : (natToLeBytes w x).length = w := by
  induction w generalizing x with
  | zero => rfl
  | succ w ih => simp [natToLeBytes, ih]

theorem natToLeBytes_lt (w x : Nat) : ∀ b ∈ natToLeBytes w x, b < 256 := by
  induction w generalizing x with
  | zero => simp [natToLeBytes]
  | succ w ih =>
    intro b hb
    simp only [natToLeBytes, List.mem_cons] at hb
    rcases hb with h | h
    · omega
    · exact ih _ _ h

theorem leBytesToNat_natToLeBytes (w x : Nat) :
    leBytesToNat (natToLeBytes w x) = x % 2 ^ (8 * w) := by
  induction w generalizing x with
  | zero => simp [natToLeBytes, leBytesToNat, Nat.mod_one]
  | succ w ih =>
    have hpow : 2 ^ (8 * (w + 1)) = 256 * 2 ^ (8 * w) := by
      rw [Nat.mul_succ, Nat.pow_add]; ring
    simp only [natToLeBytes, leBytesToNat, ih, hpow]
    rw [Nat.mod_mul]
    omega

theorem i32_round (v : Int) (h1 : -(2 ^ 31) ≤ v) (h2 : v < 2 ^ 31) :
    i32FromLeBytes (i32ToLeBytes v) = v := by
  have hnn : (0 : Int) ≤ v % (2 ^ 32 : Int) := Int.emod_nonneg v (by norm_num)
  have hlt : v % (2 ^ 32 : Int) < (2 ^ 32 : Int) := Int.emod_lt_of_pos v (by norm_num)
  have hcast : ((v % (2 ^ 32 : Int)).toNat : Int) = v % (2 ^ 32 : Int) :=
    Int.toNat_of_nonneg hnn
  have hu : leBytesToNat (i32ToLeBytes v) = (v % (2 ^ 32 : Int)).toNat := by
    rw [i32ToLeBytes, leBytesToNat_natToLeBytes]
    apply Nat.mod_eq_of_lt
    have : ((v % (2 ^ 32 : Int)).toNat : Int) < ((2 ^ (8 * 4) : Nat) : Int) := by
      rw [hcast]; norm_num at hlt ⊢; exact hlt
    exact_mod_cast this
  simp only [i32FromLeBytes, hu]
  split
  · rename_i hsmall
    have : ((v % (2 ^ 32 : Int)).toNat : Int) < (2 ^ 31 : Int) := by exact_mod_cast hsmall
    omega
  · rename_i hbig
    have : ¬ ((v % (2 ^ 32 : Int)).toNat : Int) < (2 ^ 31 : Int) := by
      intro hc
      exact hbig (by exact_mod_cast hc)
    omega

theorem i64_round (v : Int) (h1 : -(2 ^ 63) ≤ v) (h2 : v < 2 ^ 63) :
    i64FromLeBytes (i64ToLeBytes v) = v := by
  have hnn : (0 : Int) ≤ v % (2 ^ 64 : Int) := Int.emod_nonneg v (by norm_num)
  have hlt : v % (2 ^ 64 : Int) < (2 ^ 64 : Int) := Int.emod_lt_of_pos v (by norm_num)
  have hcast : ((v % (2 ^ 64 : Int)).toNat : Int) = v % (2 ^ 64 : Int) :=
    Int.toNat_of_nonneg hnn
  have hu : leBytesToNat (i64ToLeBytes v) = (v % (2 ^ 64 : Int)).toNat := by
    rw [i64ToLeBytes, leBytesToNat_natToLeBytes]
    apply Nat.mod_eq_of_lt
    have : ((v % (2 ^ 64 : Int)).toNat : Int) < ((2 ^ (8 * 8) : Nat) : Int) := by
      rw [hcast]; norm_num at hlt ⊢; exact hlt
    exact_mod_cast this
  simp only [i64FromLeBytes, hu]
  split
  · rename_i hsmall
    have : ((v % (2 ^ 64 : Int)).toNat : Int) < (2 ^ 63 : Int) := by exact_mod_cast hsmall
    omega
  · rename_i hbig
    have : ¬ ((v % (2 ^ 64 : Int)).toNat : Int) < (2 ^ 63 : Int) := by
      intro hc
      exact hbig (by exact_mod_cast hc)
    omega

/-! ## Closed form of the fixed-width decode loop -/

theorem decodeFixedAux_eq (buf : List Nat) (w : Nat) (conv : List Nat → PValue)
    (hw : 0 < w) : ∀ k i, decodeFixedAux buf w conv i k =
      (((List.range (min k (buf.length / w - i))).map
          (fun t => conv ((buf.drop ((i + t) * w)).take w))),
        i + min k (buf.length / w - i)) := by
  intro k
  induction k with
  | zero => intro i; simp [decodeFixedAux]
  | succ k ih =>
    intro i
    have hiw : (i + 1) * w = i * w + w := by ring
    by_cases hcond : i * w + w ≤ buf.length
    · have hidiv : i < buf.length / w := by
        have h2 : (i + 1) * w ≤ buf.length := by omega
        have h3 := (Nat.le_div_iff_mul_le hw).mpr h2
        omega
      have hmin : min (k + 1) (buf.length / w - i) = min k (buf.length / w - (i + 1)) + 1 := by
        omega
      simp only [decodeFixedAux, if_pos hcond, ih (i + 1), hmin, Prod.mk.injEq]
      refine ⟨?_, by omega⟩
      rw [List.range_succ_eq_map]
      simp only [List.map_cons, List.map_map, Function.comp]
      congr 1
      apply List.map_congr_left
      intro t ht
      simp only [Function.comp_apply]
      have ht2 : i + 1 + t = i + (t + 1) := by omega
      rw [ht2]
    · have hidiv : buf.length / w ≤ i := by
        by_contra hc
        push_neg at hc
        have h3 : (i + 1) * w ≤ buf.length := (Nat.le_div_iff_mul_le hw).mp hc
        omega
      have hmin : min (k + 1) (buf.length / w - i) = 0 := by omega
      simp [decodeFixedAux, if_neg hcond, hmin]

/-! ## Concatenated fixed-width blocks -/

theorem encode_i32_eq_blockJoin (vs : List Int) :
    encode_i32 vs = blockJoin (vs.map i32ToLeBytes) := by
  induction vs with
  | nil => rfl
  | cons v vs ih => simp [encode_i32, blockJoin, ih]

theorem encode_i64_eq_blockJoin (vs : List Int) :
    encode_i64 vs = blockJoin (vs.map i64ToLeBytes) := by
  induction vs with
  | nil => rfl
  | cons v vs ih => simp [encode_i64, blockJoin, ih]

theorem encode_f32_eq_blockJoin (vs : List Nat) :
    encode_f32 vs = blockJoin (vs.map (natToLeBytes 4)) := by
  induction vs with
  | nil => rfl
  | cons v vs ih => simp [encode_f32, blockJoin, ih]

theorem encode_f64_eq_blockJoin (vs : List Nat) :
    encode_f64 vs = blockJoin (vs.map (natToLeBytes 8)) := by
  induction vs with
  | nil => rfl
  | cons v vs ih => simp [encode_f64, blockJoin, ih]

theorem encode_binary_eq_blockJoin (vs : List (List Nat)) :
    encode_binary vs = blockJoin (vs.map (fun v => natToLeBytes 4 v.length ++ v)) := by
  induction vs with
  | nil => rfl
  | cons v vs ih => simp [encode_binary, blockJoin, ih]

theorem blockJoin_length (w : Nat) (bs : List (List Nat)) (h : ∀ b ∈ bs, b.length = w) :
    (blockJoin bs).length = bs.length * w := by
  induction bs with
  | nil => simp [blockJoin]
  | cons b rest ih =>
    have hb : b.length = w := h b (by simp)
    have hr : (rest.length + 1) * w = rest.length * w + w := by ring
    simp only [blockJoin, List.length_append, List.length_cons,
      ih (fun x hx => h x (by simp [hx]))]
    omega

theorem blockJoin_block (w : Nat) (bs : List (List Nat)) (h : ∀ b ∈ bs, b.length = w) :
    ∀ t (ht : t < bs.length), ((blockJoin bs).drop (t * w)).take w = bs[t] := by
  induction bs with
  | nil => intro t ht; simp at ht
  | cons b rest ih =>
    intro t ht
    match t with
    | 0 =>
      have hb : b.length = w := h b (by simp)
      simp only [Nat.zero_mul, List.drop_zero, blockJoin, List.getElem_cons_zero]
      rw [← hb, List.take_left]
    | t + 1 =>
      have hb : b.length = w := h b (by simp)
      have harith : (t + 1) * w = b.length + t * w := by rw [hb]; ring
      simp only [blockJoin, List.getElem_cons_succ, harith]
      rw [List.drop_append]
      exact ih (fun x hx => h x (by simp [hx])) t (by simpa using ht)

/-- Taking a prefix does not change a fully contained segment. -/
theorem take_drop_take (l : List Nat) (p a w : Nat) (h : a + w ≤ p) :
    ((l.take p).drop a).take w = (l.drop a).take w := by
  rw [List.drop_take, List.take_take]
  congr 1
  omega

/-- Master lemma for the four fixed-width branches: decoding any `take p`
cut of an encoded column, with any declared count `d ≤ len vs` and any
quota `q`, yields the first `min (min d q) (cut length / w)` original
values. -/
theorem decodeFixed_master (w : Nat) (hw : 0 < w) (conv : List Nat → PValue)
    (encf : PValue → List Nat) (vs : List PValue)
    (hlen : ∀ v ∈ vs, (encf v).length = w)
    (hconv : ∀ v ∈ vs, conv (encf v) = v)
    (p d q : Nat) (hd : d ≤ vs.length) :
    decodeFixedAux ((blockJoin (vs.map encf)).take p) w conv 0 (min d q)
      = (vs.take (min (min d q) (((blockJoin (vs.map encf)).take p).length / w)),
         min (min d q) (((blockJoin (vs.map encf)).take p).length / w)) := by
  have hlen' : ∀ b ∈ vs.map encf, b.length = w := by
    intro b hb
    rcases List.mem_map.mp hb with ⟨v, hv, rfl⟩
    exact hlen v hv
  rw [decodeFixedAux_eq _ _ _ hw]
  have hz : ((blockJoin (vs.map encf)).take p).length / w - 0
      = ((blockJoin (vs.map encf)).take p).length / w := Nat.sub_zero _
  rw [hz]
  have hm : min (min d q) (((blockJoin (vs.map encf)).take p).length / w) ≤ vs.length :=
    le_trans (min_le_left _ _) (le_trans (min_le_left _ _) hd)
  simp only [Nat.zero_add, Prod.mk.injEq, and_true]
  apply List.ext_getElem
  · have hm2 := hm
    simp only [List.length_take] at hm2
    simp only [List.length_map, List.length_range, List.length_take]
    exact (Nat.min_eq_left hm2).symm
  · intro t h1 h2
    simp only [List.length_map, List.length_range] at h1
    have htm : t < min (min d q) (((blockJoin (vs.map encf)).take p).length / w) := h1
    have htv : t < vs.length := lt_of_lt_of_le htm hm
    have htdiv : t < ((blockJoin (vs.map encf)).take p).length / w :=
      lt_of_lt_of_le htm (min_le_right _ _)
    have hseg : (t + 1) * w ≤ ((blockJoin (vs.map encf)).take p).length :=
      (Nat.le_div_iff_mul_le hw).mp htdiv
    have hiw : (t + 1) * w = t * w + w := by ring
    have hple : ((blockJoin (vs.map encf)).take p).length ≤ p := by
      simp only [List.length_take]
      omega
    simp only [List.getElem_map, List.getElem_range, List.getElem_take]
    rw [take_drop_take _ _ _ _ (by omega)]
    have hblock := blockJoin_block w (vs.map encf) hlen' t (by simpa using htv)
    rw [hblock]
    simp only [List.getElem_map]
    exact hconv _ (List.getElem_mem htv)

/-! ## Boolean bit-packing lemmas -/

theorem bitExtract_eq_testBit (x s : Nat) :
    (((x >>> s) &&& 1) == 1) = Nat.testBit x s := by
  rw [Nat.and_one_is_mod, Nat.testBit_to_div_mod, Nat.shiftRight_eq_div_pow]
  rcases Nat.mod_two_eq_zero_or_one (x / 2 ^ s) with h | h <;> simp [h]

theorem getD_set_ne (l : List Nat) (m n a : Nat) (h : m ≠ n) :
    (l.set m a).getD n 0 = l.getD n 0 := by
  simp [List.getD_eq_getElem?_getD, List.getElem?_set_ne h]

theorem getD_set_self (l : List Nat) (m a : Nat) (h : m < l.length) :
    (l.set m a).getD m 0 = a := by
  simp [List.getD_eq_getElem?_getD, List.getElem?_set_self h]

theorem length_setBit8 (b : List Nat) (i : Nat) : (setBit8 b i).length = b.length := by
  simp [setBit8]

theorem testBit_setBit8 (b : List Nat) (i j : Nat) (hb : i / 8 < b.length) :
    Nat.testBit ((setBit8 b i).getD (j / 8) 0) (j % 8)
      = (Nat.testBit (b.getD (j / 8) 0) (j % 8) || decide (j = i)) := by
  by_cases hdiv : j / 8 = i / 8
  · rw [setBit8, hdiv, getD_set_self _ _ _ hb, Nat.one_shiftLeft, Nat.testBit_lor]
    by_cases hmod : j % 8 = i % 8
    · have hji : j = i := by omega
      simp [hji, Nat.testBit_two_pow_self]
    · have hne : i % 8 ≠ j % 8 := fun hc => hmod hc.symm
      have hji : j ≠ i := by omega
      simp [Nat.testBit_two_pow_of_ne hne, hji]
  · have hne : i / 8 ≠ j / 8 := fun hc => hdiv hc.symm
    rw [setBit8, getD_set_ne _ _ _ _ hne]
    have hji : j ≠ i := by omega
    simp [hji]

theorem packIdx_eq (v : Bool) (vs : List Bool) (i j : Nat) (hne : j ≠ i) :
    (decide (i + 1 ≤ j) && decide (j < i + 1 + vs.length) && vs.getD (j - (i + 1)) false)
      = (decide (i ≤ j) && decide (j < i + (vs.length + 1)) && (v :: vs).getD (j - i) false) := by
  by_cases h1 : i ≤ j
  · have h3 : i + 1 ≤ j := by omega
    have h4 : j - i = (j - (i + 1)) + 1 := by omega
    have h5 : i + 1 + vs.length = i + (vs.length + 1) := by omega
    rw [h4, h5]
    simp [h1, h3]
  · have h3 : ¬ (i + 1 ≤ j) := by omega
    simp [h1, h3]

theorem packLoop_length (vals : List Bool) : ∀ (b : List Nat) (i : Nat),
    (packLoop b vals i).length = b.length := by
  induction vals with
  | nil => intro b i; rfl
  | cons v vs ih =>
    intro b i
    cases v <;> simp [packLoop, ih, length_setBit8]

theorem packLoop_testBit (vals : List Bool) : ∀ (b : List Nat) (i j : Nat),
    (∀ k, k < vals.length → (i + k) / 8 < b.length) →
    Nat.testBit ((packLoop b vals i).getD (j / 8) 0) (j % 8)
      = (Nat.testBit (b.getD (j / 8) 0) (j % 8)
          || (decide (i ≤ j) && decide (j < i + vals.length) && vals.getD (j - i) false)) := by
  induction vals with
  | nil =>
    intro b i j h
    simp only [packLoop, List.length_nil, Nat.add_zero, List.getD]
    by_cases hij : i ≤ j
    · have hnlt : ¬ j < i := by omega
      simp [hij, hnlt]
    · simp [hij]
  | cons v vs ih =>
    intro b i j h
    have hb0 : i / 8 < b.length := by
      have := h 0 (by simp)
      simpa using this
    cases v with
    | false =>
      have hstep : packLoop b (false :: vs) i = packLoop b vs (i + 1) := by
        simp [packLoop]
      rw [hstep, ih b (i + 1) j ?hyp]
      case hyp =>
        intro k hk
        have := h (k + 1) (by simpa using Nat.succ_lt_succ hk)
        have harith : i + 1 + k = i + (k + 1) := by omega
        rw [harith]
        exact this
      by_cases hji : j = i
      · subst hji
        have h3 : ¬ (j + 1 ≤ j) := by omega
        simp [h3, List.length_cons]
      · rw [List.length_cons, packIdx_eq false vs i j hji]
    | true =>
      have hstep : packLoop b (true :: vs) i = packLoop (setBit8 b i) vs (i + 1) := by
        simp [packLoop]
      rw [hstep, ih (setBit8 b i) (i + 1) j ?hyp2]
      case hyp2 =>
        intro k hk
        rw [length_setBit8]
        have := h (k + 1) (by simpa using Nat.succ_lt_succ hk)
        have harith : i + 1 + k = i + (k + 1) := by omega
        rw [harith]
        exact this
      rw [testBit_setBit8 b i j hb0]
      by_cases hji : j = i
      · subst hji
        have h1 : j ≤ j := le_refl j
        have h2 : j < j + (vs.length + 1) := by omega
        have h4 : j - j = 0 := by omega
        simp [h1, h2, h4, List.length_cons]
      · rw [List.length_cons, packIdx_eq true vs i j hji]
        simp [hji, Bool.or_assoc]

theorem length_encode_bool (vals : List Bool) :
    (encode_bool vals).length = (vals.length + 7) / 8 := by
  rw [encode_bool, packLoop_length, List.length_replicate]

theorem encode_bool_testBit (vals : List Bool) (j : Nat) :
    Nat.testBit ((encode_bool vals).getD (j / 8) 0) (j % 8)
      = (decide (j < vals.length) && vals.getD j false) := by
  rw [encode_bool, packLoop_testBit vals _ 0 j ?hyp3]
  case hyp3 =>
    intro k hk
    rw [List.length_replicate]
    omega
  have hrep : (List.replicate ((vals.length + 7) / 8) (0 : Nat)).getD (j / 8) 0 = 0 := by
    simp [List.getD_eq_getElem?_getD, List.getElem?_replicate]
    split <;> rfl
  rw [hrep]
  simp

theorem encode_bool_getD_lt (vals : List Bool) (j : Nat) :
    (encode_bool vals).getD j 0 < 256 := by
  have key : ∀ (vs : List Bool) (b : List Nat) (i : Nat), (∀ x ∈ b, x < 256) →
      ∀ x ∈ packLoop b vs i, x < 256 := by
    intro vs
    induction vs with
    | nil => intro b i hb x hx; exact hb x hx
    | cons v vs ih =>
      intro b i hb x hx
      cases v with
      | false => exact ih b (i + 1) hb x hx
      | true =>
        refine ih (setBit8 b i) (i + 1) ?_ x hx
        intro y hy
        rcases List.mem_or_eq_of_mem_set hy with hmem | rfl
        · exact hb y hmem
        · have h1 : b.getD (i / 8) 0 < 256 := by
            rcases Nat.lt_or_ge (i / 8) b.length with hlt | hge
            · simp only [List.getD_eq_getElem?_getD, List.getElem?_eq_getElem hlt,
                Option.getD_some]
              exact hb _ (List.getElem_mem hlt)
            · simp [List.getD_eq_getElem?_getD, List.getElem?_eq_none hge]
          have h2 : (1 <<< (i % 8)) < 256 := by
            rw [Nat.one_shiftLeft]
            have : i % 8 < 8 := Nat.mod_lt _ (by omega)
            calc 2 ^ (i % 8) ≤ 2 ^ 7 := Nat.pow_le_pow_right (by omega) (by omega)
            _ < 256 := by omega
          have h256 : (256 : Nat) = 2 ^ 8 := by norm_num
          rw [h256] at h1 h2 ⊢
          exact Nat.or_lt_two_pow h1 h2
  rcases Nat.lt_or_ge j (encode_bool vals).length with hlt | hge
  · simp only [List.getD_eq_getElem?_getD, List.getElem?_eq_getElem hlt, Option.getD_some]
    refine key vals _ 0 ?_ _ (List.getElem_mem hlt)
    intro x hx
    rcases List.eq_of_mem_replicate hx with rfl
    omega
  · simp [List.getD_eq_getElem?_getD, List.getElem?_eq_none hge]

/-! ## Inversion of the typing predicate -/

theorem okValue_int32 (v : PValue) (h : okValue .int32 v) :
    ∃ x, v = PValue.vi32 x ∧ (-(2 ^ 31) ≤ x ∧ x < 2 ^ 31) := by
  cases v
  case vi32 x => exact ⟨x, rfl, h⟩
  all_goals simp [okValue] at h

theorem okValue_int64 (v : PValue) (h : okValue .int64 v) :
    ∃ x, v = PValue.vi64 x ∧ (-(2 ^ 53) ≤ x ∧ x ≤ 2 ^ 53) := by
  cases v
  case vi64 x => exact ⟨x, rfl, h⟩
  all_goals simp [okValue] at h

theorem okValue_timestamp (v : PValue) (h : okValue .timestampMillis v) :
    ∃ x, v = PValue.vi64 x ∧ (-(2 ^ 53) ≤ x ∧ x ≤ 2 ^ 53) := by
  cases v
  case vi64 x => exact ⟨x, rfl, h⟩
  all_goals simp [okValue] at h

theorem okValue_float32 (v : PValue) (h : okValue .float32 v) :
    ∃ b, v = PValue.vf32 b ∧ b < 2 ^ 32 := by
  cases v
  case vf32 b => exact ⟨b, rfl, h⟩
  all_goals simp [okValue] at h

theorem okValue_float64 (v : PValue) (h : okValue .float64 v) :
    ∃ b, v = PValue.vf64 b ∧ b < 2 ^ 64 := by
  cases v
  case vf64 b => exact ⟨b, rfl, h⟩
  all_goals simp [okValue] at h

theorem okValue_boolean (v : PValue) (h : okValue .boolean v) :
    ∃ b, v = PValue.vbool b := by
  cases v
  case vbool b => exact ⟨b, rfl⟩
  all_goals simp [okValue] at h

theorem okValue_str (v : PValue) (h : okValue .str v) :
    ∃ bs, v = PValue.vstr bs
      ∧ (validUtf8 bs = true ∧ bs.length < 2 ^ 32 ∧ ∀ x ∈ bs, x < 256) := by
  cases v
  case vstr bs => exact ⟨bs, rfl, h⟩
  all_goals simp [okValue] at h

/-! ## Closed form of the boolean decode loop -/

theorem decodeBoolAux_eq (buf : List Nat) : ∀ k i, decodeBoolAux buf i k =
    (((List.range (min k (8 * buf.length - i))).map
        (fun t => PValue.vbool (Nat.testBit (buf.getD ((i + t) / 8) 0 % 256) ((i + t) % 8)))),
      i + min k (8 * buf.length - i)) := by
  intro k
  induction k with
  | zero => intro i; simp [decodeBoolAux]
  | succ k ih =>
    intro i
    by_cases hcond : i / 8 < buf.length
    · have hi8 : i < 8 * buf.length := by omega
      have hmin : min (k + 1) (8 * buf.length - i)
          = min k (8 * buf.length - (i + 1)) + 1 := by omega
      simp only [decodeBoolAux, if_pos hcond, ih (i + 1), hmin, Prod.mk.injEq]
      refine ⟨?_, by omega⟩
      rw [List.range_succ_eq_map]
      simp only [List.map_cons, List.map_map]
      congr 1
      · rw [bitExtract_eq_testBit]
        simp
      · apply List.map_congr_left
        intro t ht
        simp only [Function.comp_apply]
        have ht2 : i + 1 + t = i + (t + 1) := by omega
        rw [ht2]
    · have hi8 : 8 * buf.length ≤ i := by omega
      have hmin : min (k + 1) (8 * buf.length - i) = 0 := by omega
      simp [decodeBoolAux, if_neg hcond, hmin]

/-- Master lemma for the `Boolean` branch: decoding any `take p` cut of an
encoded boolean column. -/
theorem decodeBool_master (vs : List PValue) (hok : ∀ v ∈ vs, okValue .boolean v)
    (p d q : Nat) (hd : d ≤ vs.length) :
    decodeBoolAux ((encode_bool (vs.map projBool)).take p) 0 (min d q)
      = (vs.take (min (min d q) (8 * ((encode_bool (vs.map projBool)).take p).length)),
         min (min d q) (8 * ((encode_bool (vs.map projBool)).take p).length)) := by
  rw [decodeBoolAux_eq]
  have hz : 8 * ((encode_bool (vs.map projBool)).take p).length - 0
      = 8 * ((encode_bool (vs.map projBool)).take p).length := Nat.sub_zero _
  rw [hz]
  have hm : min (min d q) (8 * ((encode_bool (vs.map projBool)).take p).length)
      ≤ vs.length := le_trans (min_le_left _ _) (le_trans (min_le_left _ _) hd)
  simp only [Nat.zero_add, Prod.mk.injEq, and_true]
  apply List.ext_getElem
  · simp only [List.length_map, List.length_range, List.length_take]
    have hm2 := hm
    simp only [List.length_take] at hm2
    exact (Nat.min_eq_left hm2).symm
  · intro t h1 h2
    simp only [List.length_map, List.length_range] at h1
    have htm : t < min (min d q) (8 * ((encode_bool (vs.map projBool)).take p).length) := h1
    have htv : t < vs.length := lt_of_lt_of_le htm hm
    have ht8 : t < 8 * ((encode_bool (vs.map projBool)).take p).length :=
      lt_of_lt_of_le htm (min_le_right _ _)
    have htb : t / 8 < ((encode_bool (vs.map projBool)).take p).length := by omega
    have hgd : ((encode_bool (vs.map projBool)).take p).getD (t / 8) 0
        = (encode_bool (vs.map projBool)).getD (t / 8) 0 := by
      have hlt : t / 8 < (encode_bool (vs.map projBool)).length := by
        have := htb
        simp only [List.length_take] at this
        omega
      simp only [List.getD_eq_getElem?_getD]
      rw [List.getElem?_take, if_pos ?hp, List.getElem?_eq_getElem hlt]
      case hp =>
        have := htb
        simp only [List.length_take] at this
        omega
    simp only [List.getElem_map, List.getElem_range, List.getElem_take]
    rw [hgd]
    have hmod : (encode_bool (vs.map projBool)).getD (t / 8) 0 % 256
        = (encode_bool (vs.map projBool)).getD (t / 8) 0 :=
      Nat.mod_eq_of_lt (encode_bool_getD_lt _ _)
    rw [hmod, encode_bool_testBit]
    have hlt2 : t < (vs.map projBool).length := by simpa using htv
    obtain ⟨b, hv⟩ := okValue_boolean _ (hok vs[t] (List.getElem_mem htv))
    have hopt : vs[t]? = some (PValue.vbool b) := by
      rw [List.getElem?_eq_getElem htv, hv]
    simp [hlt2, hv, hopt, projBool, htv]

/-! ## Byte-array decode lemmas -/

theorem take_append_big (l1 l2 : List Nat) (n : Nat) (h : l1.length ≤ n) :
    (l1 ++ l2).take n = l1 ++ l2.take (n - l1.length) := by
  rw [List.take_append_eq_append_take, List.take_of_length_le h]

theorem drop_append_big (l1 l2 : List Nat) (n : Nat) (h : l1.length ≤ n) :
    (l1 ++ l2).drop n = l2.drop (n - l1.length) := by
  rw [List.drop_append_eq_append_drop, List.drop_of_length_le h, List.nil_append]

theorem decodeBinAux_eq_list (buf : List Nat) : ∀ k off,
    decodeBinAux buf off k = decodeBinList (buf.drop off) k := by
  intro k
  induction k with
  | zero => intro off; rfl
  | succ k ih =>
    intro off
    have hlen : (buf.drop off).length = buf.length - off := List.length_drop ..
    by_cases h1 : off + 4 ≤ buf.length
    · have h1' : 4 ≤ (buf.drop off).length := by omega
      simp only [decodeBinAux, decodeBinList, if_pos h1, if_pos h1']
      by_cases h2 : off + 4 + leBytesToNat ((buf.drop off).take 4) ≤ buf.length
      · have h2' : 4 + leBytesToNat ((buf.drop off).take 4) ≤ (buf.drop off).length := by
          omega
        simp only [if_pos h2, if_pos h2']
        have hdd : (buf.drop off).drop 4 = buf.drop (off + 4) := List.drop_drop 4 off buf
        have hrec : buf.drop (off + 4 + leBytesToNat ((buf.drop off).take 4))
            = (buf.drop off).drop (4 + leBytesToNat ((buf.drop off).take 4)) := by
          rw [List.drop_drop]
          congr 1
          omega
        rw [ih, hdd, hrec]
      · have h2' : ¬ (4 + leBytesToNat ((buf.drop off).take 4) ≤ (buf.drop off).length) := by
          omega
        simp only [if_neg h2, if_neg h2']
    · have h1' : ¬ (4 ≤ (buf.drop off).length) := by omega
      simp only [decodeBinAux, decodeBinList, if_neg h1, if_neg h1']

theorem binAvailAux_fuel : ∀ f1 f2 (buf : List Nat), buf.length ≤ f1 → buf.length ≤ f2 →
    binAvailAux f1 buf = binAvailAux f2 buf := by
  intro f1
  induction f1 with
  | zero =>
    intro f2 buf h1 h2
    have hb : buf = [] := List.eq_nil_of_length_eq_zero (by omega)
    subst hb
    cases f2 <;> simp [binAvailAux]
  | succ f1 ih =>
    intro f2 buf h1 h2
    cases f2 with
    | zero =>
      have hb : buf = [] := List.eq_nil_of_length_eq_zero (by omega)
      subst hb
      simp [binAvailAux]
    | succ f2 =>
      simp only [binAvailAux]
      by_cases hc : 4 ≤ buf.length
      · simp only [if_pos hc]
        by_cases hc2 : 4 + leBytesToNat (buf.take 4) ≤ buf.length
        · simp only [if_pos hc2]
          congr 1
          apply ih
          · rw [List.length_drop]; omega
          · rw [List.length_drop]; omega
        · simp [if_neg hc2]
      · simp [if_neg hc]

theorem binAvail_step (buf : List Nat) : binAvail buf =
    if 4 ≤ buf.length then
      (if 4 + leBytesToNat (buf.take 4) ≤ buf.length
       then 1 + binAvail (buf.drop (4 + leBytesToNat (buf.take 4))) else 0)
    else 0 := by
  have h1 : binAvail buf = binAvailAux (buf.length + 1) buf :=
    binAvailAux_fuel buf.length (buf.length + 1) buf (le_refl _) (by omega)
  rw [h1]
  simp only [binAvailAux]
  by_cases hc : 4 ≤ buf.length
  · simp only [if_pos hc]
    by_cases hc2 : 4 + leBytesToNat (buf.take 4) ≤ buf.length
    · simp only [if_pos hc2]
      congr 1
      rw [binAvail]
      apply binAvailAux_fuel
      · rw [List.length_drop]; omega
      · exact le_refl _
    · simp [if_neg hc2]
  · simp [if_neg hc]

theorem decodeBinList_le : ∀ (n : Nat) (buf : List Nat),
    (decodeBinList buf n).2 ≤ n ∧ (decodeBinList buf n).1.length = (decodeBinList buf n).2 := by
  intro n
  induction n with
  | zero => intro buf; simp [decodeBinList]
  | succ k ih =>
    intro buf
    simp only [decodeBinList]
    by_cases h1 : 4 ≤ buf.length
    · simp only [if_pos h1]
      by_cases h2 : 4 + leBytesToNat (buf.take 4) ≤ buf.length
      · simp only [if_pos h2, List.length_cons]
        have := ih (buf.drop (4 + leBytesToNat (buf.take 4)))
        omega
      · simp [if_neg h2]
    · simp [if_neg h1]

/-- Master lemma for the `ByteArray` branch: decoding any `take p` cut of an
encoded binary column yields the first `min n (binAvail cut)` values, each
passed through the UTF-8 check. -/
theorem decodeBinList_take_encode : ∀ (vs : List (List Nat)),
    (∀ v ∈ vs, v.length < 2 ^ 32) →
    ∀ p n, decodeBinList ((encode_binary vs).take p) n
      = (((vs.take (min n (binAvail ((encode_binary vs).take p)))).map
            (fun v => PValue.vstr (if validUtf8 v then v else binarySentinel))),
         min n (binAvail ((encode_binary vs).take p))) := by
  intro vs
  induction vs with
  | nil =>
    intro h p n
    have he : encode_binary ([] : List (List Nat)) = [] := rfl
    rw [he]
    simp only [List.take_nil]
    cases n <;> simp [decodeBinList, binAvail, binAvailAux]
  | cons v vs ih =>
    intro h p n
    have hv : v.length < 2 ^ 32 := h v (by simp)
    have hrest : ∀ x ∈ vs, x.length < 2 ^ 32 := fun x hx => h x (by simp [hx])
    have hpfx : (natToLeBytes 4 v.length).length = 4 := length_natToLeBytes ..
    have hfull : encode_binary (v :: vs)
        = natToLeBytes 4 v.length ++ (v ++ encode_binary vs) := by
      simp [encode_binary]
    rw [hfull]
    have hlenfull : (natToLeBytes 4 v.length ++ (v ++ encode_binary vs)).length
        = 4 + (v.length + (encode_binary vs).length) := by
      simp [List.length_append, hpfx]
    by_cases hp4 : p < 4
    · have hlen : ((natToLeBytes 4 v.length ++ (v ++ encode_binary vs)).take p).length < 4 := by
        rw [List.length_take]
        omega
      have havail : binAvail ((natToLeBytes 4 v.length ++ (v ++ encode_binary vs)).take p)
          = 0 := by
        rw [binAvail_step, if_neg (by omega)]
      rw [havail]
      simp only [Nat.min_zero, List.take_zero, List.map_nil]
      cases n with
      | zero => rfl
      | succ k =>
        simp only [decodeBinList]
        rw [if_neg (by omega)]
    · push_neg at hp4
      have htake4 : ((natToLeBytes 4 v.length ++ (v ++ encode_binary vs)).take p).take 4
          = natToLeBytes 4 v.length := by
        rw [List.take_take]
        have hmin4 : min 4 p = 4 := by omega
        rw [hmin4]
        exact List.take_left' hpfx
      have hlenval : leBytesToNat
          (((natToLeBytes 4 v.length ++ (v ++ encode_binary vs)).take p).take 4)
          = v.length := by
        rw [htake4, leBytesToNat_natToLeBytes]
        apply Nat.mod_eq_of_lt
        norm_num
        exact hv
      by_cases hpv : p < 4 + v.length
      · have hplen : ((natToLeBytes 4 v.length ++ (v ++ encode_binary vs)).take p).length
            = p := by
          rw [List.length_take]
          omega
        have havail : binAvail ((natToLeBytes 4 v.length ++ (v ++ encode_binary vs)).take p)
            = 0 := by
          rw [binAvail_step, if_pos (by omega), hlenval, if_neg (by omega)]
        rw [havail]
        simp only [Nat.min_zero, List.take_zero, List.map_nil]
        cases n with
        | zero => rfl
        | succ k =>
          simp only [decodeBinList]
          rw [if_pos (by omega), hlenval, if_neg (by omega)]
      · push_neg at hpv
        have hpre : (natToLeBytes 4 v.length ++ (v ++ encode_binary vs)).take p
            = natToLeBytes 4 v.length ++ (v ++ (encode_binary vs).take (p - 4 - v.length)) := by
          rw [take_append_big _ _ _ (by omega), hpfx]
          congr 1
          rw [take_append_big _ _ _ (by omega)]
        have hplen : 4 + v.length
            ≤ ((natToLeBytes 4 v.length ++ (v ++ encode_binary vs)).take p).length := by
          rw [List.length_take]
          omega
        have hdrop4 : ((natToLeBytes 4 v.length ++ (v ++ encode_binary vs)).take p).drop 4
            = v ++ (encode_binary vs).take (p - 4 - v.length) := by
          rw [hpre]
          exact List.drop_left' hpfx
        have hchunk : (((natToLeBytes 4 v.length ++ (v ++ encode_binary vs)).take p).drop 4).take
            v.length = v := by
          rw [hdrop4]
          exact List.take_left v _
        have hdroprec : ((natToLeBytes 4 v.length ++ (v ++ encode_binary vs)).take p).drop
            (4 + v.length) = (encode_binary vs).take (p - 4 - v.length) := by
          rw [hpre, drop_append_big _ _ _ (by omega), hpfx]
          have h4 : 4 + v.length - 4 = v.length := by omega
          rw [h4]
          exact List.drop_left v _
        have havail : binAvail ((natToLeBytes 4 v.length ++ (v ++ encode_binary vs)).take p)
            = 1 + binAvail ((encode_binary vs).take (p - 4 - v.length)) := by
          rw [binAvail_step, if_pos (by omega), hlenval, if_pos (by omega), hdroprec]
        rw [havail]
        cases n with
        | zero => simp [decodeBinList]
        | succ k =>
          simp only [decodeBinList]
          rw [if_pos (by omega), hlenval, if_pos (by omega), hchunk, hdroprec,
            ih hrest (p - 4 - v.length) k]
          have hminstep : min (k + 1)
              (1 + binAvail ((encode_binary vs).take (p - 4 - v.length)))
              = min k (binAvail ((encode_binary vs).take (p - 4 - v.length))) + 1 := by
            omega
          rw [hminstep]
          simp [List.take_succ_cons]

/-! ## Combined decode/encode master theorem -/

/-- Decoding any `take p` cut of an encoded column of type `t`, with any
declared count `d ≤ len vs` and any quota `q`, yields exactly the first
`min (min d q) (availRecords ... cut)` original values. -/
theorem decode_take_encode (t : ColType) (vs : List PValue)
    (hok : ∀ v ∈ vs, okValue t v) (p d q : Nat) (hd : d ≤ vs.length) :
    decode_plain ((encodeColumn t vs).take p) t.physicalType d q
      = (vs.take (min (min d q) (availRecords t.physicalType ((encodeColumn t vs).take p))),
         min (min d q) (availRecords t.physicalType ((encodeColumn t vs).take p))) := by
  cases t with
  | int32 =>
    have henc : encodeColumn ColType.int32 vs
        = blockJoin (vs.map (fun v => i32ToLeBytes (projI32 v))) := by
      simp [encodeColumn, encode_i32_eq_blockJoin, List.map_map, Function.comp_def]
    simp only [ColType.physicalType, decode_plain, availRecords, henc]
    exact decodeFixed_master 4 (by omega) _ _ vs
      (fun v hv => length_natToLeBytes ..)
      (fun v hv => by
        obtain ⟨x, rfl, hx⟩ := okValue_int32 v (hok v hv)
        exact congrArg PValue.vi32 (i32_round x hx.1 hx.2))
      p d q hd
  | int64 =>
    have henc : encodeColumn ColType.int64 vs
        = blockJoin (vs.map (fun v => i64ToLeBytes (projI64 v))) := by
      simp [encodeColumn, encode_i64_eq_blockJoin, List.map_map, Function.comp_def]
    simp only [ColType.physicalType, decode_plain, availRecords, henc]
    exact decodeFixed_master 8 (by omega) _ _ vs
      (fun v hv => length_natToLeBytes ..)
      (fun v hv => by
        obtain ⟨x, rfl, hx⟩ := okValue_int64 v (hok v hv)
        have e1 : -(2 ^ 63 : Int) ≤ x := by
          have h1 := hx.1
          norm_num at h1 ⊢
          omega
        have e2 : x < (2 ^ 63 : Int) := by
          have h2 := hx.2
          norm_num at h2 ⊢
          omega
        exact congrArg PValue.vi64 (i64_round x e1 e2))
      p d q hd
  | timestampMillis =>
    have henc : encodeColumn ColType.timestampMillis vs
        = blockJoin (vs.map (fun v => i64ToLeBytes (projI64 v))) := by
      simp [encodeColumn, encode_i64_eq_blockJoin, List.map_map, Function.comp_def]
    simp only [ColType.physicalType, decode_plain, availRecords, henc]
    exact decodeFixed_master 8 (by omega) _ _ vs
      (fun v hv => length_natToLeBytes ..)
      (fun v hv => by
        obtain ⟨x, rfl, hx⟩ := okValue_timestamp v (hok v hv)
        have e1 : -(2 ^ 63 : Int) ≤ x := by
          have h1 := hx.1
          norm_num at h1 ⊢
          omega
        have e2 : x < (2 ^ 63 : Int) := by
          have h2 := hx.2
          norm_num at h2 ⊢
          omega
        exact congrArg PValue.vi64 (i64_round x e1 e2))
      p d q hd
  | float32 =>
    have henc : encodeColumn ColType.float32 vs
        = blockJoin (vs.map (fun v => natToLeBytes 4 (projF32 v))) := by
      simp [encodeColumn, encode_f32_eq_blockJoin, List.map_map, Function.comp_def]
    simp only [ColType.physicalType, decode_plain, availRecords, henc]
    exact decodeFixed_master 4 (by omega) _ _ vs
      (fun v hv => length_natToLeBytes ..)
      (fun v hv => by
        obtain ⟨b, rfl, hb⟩ := okValue_float32 v (hok v hv)
        have hmod : b % 2 ^ (8 * 4) = b := by
          apply Nat.mod_eq_of_lt
          norm_num at hb ⊢
          exact hb
        exact congrArg PValue.vf32 ((leBytesToNat_natToLeBytes 4 b).trans hmod))
      p d q hd
  | float64 =>
    have henc : encodeColumn ColType.float64 vs
        = blockJoin (vs.map (fun v => natToLeBytes 8 (projF64 v))) := by
      simp [encodeColumn, encode_f64_eq_blockJoin, List.map_map, Function.comp_def]
    simp only [ColType.physicalType, decode_plain, availRecords, henc]
    exact decodeFixed_master 8 (by omega) _ _ vs
      (fun v hv => length_natToLeBytes ..)
      (fun v hv => by
        obtain ⟨b, rfl, hb⟩ := okValue_float64 v (hok v hv)
        have hmod : b % 2 ^ (8 * 8) = b := by
          apply Nat.mod_eq_of_lt
          norm_num at hb ⊢
          exact hb
        exact congrArg PValue.vf64 ((leBytesToNat_natToLeBytes 8 b).trans hmod))
      p d q hd
  | boolean =>
    simp only [ColType.physicalType, decode_plain, availRecords, encodeColumn]
    exact decodeBool_master vs hok p d q hd
  | str =>
    have henc : encodeColumn ColType.str vs = encode_binary (vs.map projStr) := rfl
    have hlen : ∀ x ∈ vs.map projStr, x.length < 2 ^ 32 := by
      intro x hx
      rcases List.mem_map.mp hx with ⟨v, hv, rfl⟩
      obtain ⟨bs, rfl, hb⟩ := okValue_str v (hok v hv)
      simpa [projStr] using hb.2.1
    simp only [ColType.physicalType, decode_plain, availRecords, henc]
    rw [decodeBinAux_eq_list, List.drop_zero,
      decodeBinList_take_encode (vs.map projStr) hlen p (min d q)]
    rw [← List.map_take, List.map_map]
    have hptw : ∀ v ∈ vs.take (min (min d q)
        (binAvail ((encode_binary (vs.map projStr)).take p))),
        ((fun v => PValue.vstr (if validUtf8 v then v else binarySentinel)) ∘ projStr) v
          = id v := by
      intro v hv
      obtain ⟨bs, rfl, hb⟩ := okValue_str v (hok v (List.mem_of_mem_take hv))
      simp [projStr, Function.comp, hb.1]
    rw [List.map_congr_left hptw, List.map_id]

/-! ## Record availability of a complete encoded buffer -/

theorem fixed_avail (w : Nat) (hw : 0 < w) (encf : PValue → List Nat) (vs : List PValue)
    (hlen : ∀ v ∈ vs, (encf v).length = w) :
    (blockJoin (vs.map encf)).length / w = vs.length := by
  rw [blockJoin_length w _ ?hblocks, List.length_map]
  case hblocks =>
    intro b hb
    rcases List.mem_map.mp hb with ⟨v, hv, rfl⟩
    exact hlen v hv
  exact Nat.mul_div_cancel _ hw

theorem binAvail_encode : ∀ (bs : List (List Nat)), (∀ v ∈ bs, v.length < 2 ^ 32) →
    binAvail (encode_binary bs) = bs.length := by
  intro bs
  induction bs with
  | nil => intro h; simp [encode_binary, binAvail, binAvailAux]
  | cons v rest ih =>
    intro h
    have hv : v.length < 2 ^ 32 := h v (by simp)
    have hpfx : (natToLeBytes 4 v.length).length = 4 := length_natToLeBytes ..
    have hfull : encode_binary (v :: rest)
        = natToLeBytes 4 v.length ++ (v ++ encode_binary rest) := by
      simp [encode_binary]
    rw [hfull, binAvail_step]
    have hlen : (natToLeBytes 4 v.length ++ (v ++ encode_binary rest)).length
        = 4 + (v.length + (encode_binary rest).length) := by
      simp [hpfx]
    have htake : (natToLeBytes 4 v.length ++ (v ++ encode_binary rest)).take 4
        = natToLeBytes 4 v.length := List.take_left' hpfx
    have hleb : leBytesToNat ((natToLeBytes 4 v.length ++ (v ++ encode_binary rest)).take 4)
        = v.length := by
      rw [htake, leBytesToNat_natToLeBytes]
      apply Nat.mod_eq_of_lt
      norm_num at hv ⊢
      exact hv
    rw [if_pos (by omega), hleb, if_pos (by omega)]
    have hdrop : (natToLeBytes 4 v.length ++ (v ++ encode_binary rest)).drop (4 + v.length)
        = encode_binary rest := by
      rw [drop_append_big _ _ _ (by omega), hpfx]
      have h4 : 4 + v.length - 4 = v.length := by omega
      rw [h4]
      exact List.drop_left v _
    rw [hdrop, ih (fun x hx => h x (by simp [hx]))]
    simp [List.length_cons]
    omega

theorem availRecords_full (t : ColType) (vs : List PValue)
    (hok : ∀ v ∈ vs, okValue t v) :
    vs.length ≤ availRecords t.physicalType (encodeColumn t vs) := by
  cases t with
  | int32 =>
    have henc : encodeColumn ColType.int32 vs
        = blockJoin (vs.map (fun v => i32ToLeBytes (projI32 v))) := by
      simp [encodeColumn, encode_i32_eq_blockJoin, List.map_map, Function.comp_def]
    simp only [ColType.physicalType, availRecords, henc]
    have hfa := fixed_avail 4 (by omega) (fun v => i32ToLeBytes (projI32 v)) vs
      (fun v hv => length_natToLeBytes ..)
    omega
  | int64 =>
    have henc : encodeColumn ColType.int64 vs
        = blockJoin (vs.map (fun v => i64ToLeBytes (projI64 v))) := by
      simp [encodeColumn, encode_i64_eq_blockJoin, List.map_map, Function.comp_def]
    simp only [ColType.physicalType, availRecords, henc]
    have hfa := fixed_avail 8 (by omega) (fun v => i64ToLeBytes (projI64 v)) vs
      (fun v hv => length_natToLeBytes ..)
    omega
  | timestampMillis =>
    have henc : encodeColumn ColType.timestampMillis vs
        = blockJoin (vs.map (fun v => i64ToLeBytes (projI64 v))) := by
      simp [encodeColumn, encode_i64_eq_blockJoin, List.map_map, Function.comp_def]
    simp only [ColType.physicalType, availRecords, henc]
    have hfa := fixed_avail 8 (by omega) (fun v => i64ToLeBytes (projI64 v)) vs
      (fun v hv => length_natToLeBytes ..)
    omega
  | float32 =>
    have henc : encodeColumn ColType.float32 vs
        = blockJoin (vs.map (fun v => natToLeBytes 4 (projF32 v))) := by
      simp [encodeColumn, encode_f32_eq_blockJoin, List.map_map, Function.comp_def]
    simp only [ColType.physicalType, availRecords, henc]
    have hfa := fixed_avail 4 (by omega) (fun v => natToLeBytes 4 (projF32 v)) vs
      (fun v hv => length_natToLeBytes ..)
    omega
  | float64 =>
    have henc : encodeColumn ColType.float64 vs
        = blockJoin (vs.map (fun v => natToLeBytes 8 (projF64 v))) := by
      simp [encodeColumn, encode_f64_eq_blockJoin, List.map_map, Function.comp_def]
    simp only [ColType.physicalType, availRecords, henc]
    have hfa := fixed_avail 8 (by omega) (fun v => natToLeBytes 8 (projF64 v)) vs
      (fun v hv => length_natToLeBytes ..)
    omega
  | boolean =>
    simp only [ColType.physicalType, availRecords, encodeColumn]
    rw [length_encode_bool]
    simp only [List.length_map]
    omega
  | str =>
    have hlen : ∀ x ∈ vs.map projStr, x.length < 2 ^ 32 := by
      intro x hx
      rcases List.mem_map.mp hx with ⟨v, hv, rfl⟩
      obtain ⟨bs, rfl, hb⟩ := okValue_str v (hok v hv)
      simpa [projStr] using hb.2.1
    simp only [ColType.physicalType, availRecords, encodeColumn]
    rw [binAvail_encode (vs.map projStr) hlen, List.length_map]


/-! ## Count bounds on arbitrary buffers -/

theorem decodeFixedAux_count (buf : List Nat) (w : Nat) (conv : List Nat → PValue)
    (hw : 0 < w) (n : Nat) :
    (decodeFixedAux buf w conv 0 n).2 ≤ n ∧
    (decodeFixedAux buf w conv 0 n).1.length = (decodeFixedAux buf w conv 0 n).2 := by
  rw [decodeFixedAux_eq _ _ _ hw]
  constructor
  · rw [Nat.zero_add]
    exact min_le_left _ _
  · simp

theorem decodeBoolAux_count (buf : List Nat) (n : Nat) :
    (decodeBoolAux buf 0 n).2 ≤ n ∧
    (decodeBoolAux buf 0 n).1.length = (decodeBoolAux buf 0 n).2 := by
  rw [decodeBoolAux_eq]
  constructor
  · rw [Nat.zero_add]
    exact min_le_left _ _
  · simp

/-- The count a decode returns never exceeds `min declared quota`, and it
always equals the number of values pushed — over arbitrary buffers. -/
theorem decode_plain_count (buf : List Nat) (phys : PhysicalType) (d q : Nat) :
    (decode_plain buf phys d q).2 ≤ min d q ∧
    (decode_plain buf phys d q).1.length = (decode_plain buf phys d q).2 := by
  cases phys with
  | int32 => exact decodeFixedAux_count buf 4 _ (by omega) _
  | int64 => exact decodeFixedAux_count buf 8 _ (by omega) _
  | float => exact decodeFixedAux_count buf 4 _ (by omega) _
  | double => exact decodeFixedAux_count buf 8 _ (by omega) _
  | boolean => exact decodeBoolAux_count buf _
  | byteArray =>
    simp only [decode_plain]
    rw [decodeBinAux_eq_list, List.drop_zero]
    exact decodeBinList_le _ _
  | int96 => simp [decode_plain]
  | fixedLenByteArray k => simp [decode_plain]

/-! ## The checked decoder never goes out of bounds -/

theorem readBytesChecked_eq (buf : List Nat) : ∀ (w off : Nat), off + w ≤ buf.length →
    readBytesChecked buf off w = some ((buf.drop off).take w) := by
  intro w
  induction w with
  | zero => intro off h; simp [readBytesChecked]
  | succ w ih =>
    intro off h
    have hoff : off < buf.length := by omega
    have hget : buf.get? off = some buf[off] := by
      rw [List.get?_eq_getElem?, List.getElem?_eq_getElem hoff]
    have hdrop : buf.drop off = buf[off] :: buf.drop (off + 1) :=
      List.drop_eq_getElem_cons hoff
    simp only [readBytesChecked, hget, ih (off + 1) (by omega), hdrop, List.take_succ_cons]

theorem decodeFixedCheckedAux_eq (buf : List Nat) (w : Nat) (conv : List Nat → PValue) :
    ∀ k i, decodeFixedCheckedAux buf w conv i k = some (decodeFixedAux buf w conv i k) := by
  intro k
  induction k with
  | zero => intro i; rfl
  | succ k ih =>
    intro i
    by_cases hc : i * w + w ≤ buf.length
    · have hrb := readBytesChecked_eq buf w (i * w) (by omega)
      simp only [decodeFixedCheckedAux, decodeFixedAux, if_pos hc, hrb, ih (i + 1)]
    · simp only [decodeFixedCheckedAux, decodeFixedAux, if_neg hc]

theorem decodeBoolCheckedAux_eq (buf : List Nat) :
    ∀ k i, decodeBoolCheckedAux buf i k = some (decodeBoolAux buf i k) := by
  intro k
  induction k with
  | zero => intro i; rfl
  | succ k ih =>
    intro i
    by_cases hc : i / 8 < buf.length
    · have hget : buf.get? (i / 8) = some buf[i / 8] := by
        rw [List.get?_eq_getElem?, List.getElem?_eq_getElem hc]
      have hgd : buf.getD (i / 8) 0 = buf[i / 8] := by
        rw [List.getD_eq_getElem?_getD, List.getElem?_eq_getElem hc, Option.getD_some]
      simp only [decodeBoolCheckedAux, decodeBoolAux, if_pos hc, hget, ih (i + 1), hgd]
    · simp only [decodeBoolCheckedAux, decodeBoolAux, if_neg hc]

theorem decodeBinCheckedAux_eq (buf : List Nat) :
    ∀ k off, decodeBinCheckedAux buf off k = some (decodeBinAux buf off k) := by
  intro k
  induction k with
  | zero => intro off; rfl
  | succ k ih =>
    intro off
    by_cases h1 : off + 4 ≤ buf.length
    · have hrb4 := readBytesChecked_eq buf 4 off (by omega)
      simp only [decodeBinCheckedAux, decodeBinAux, if_pos h1, hrb4]
      by_cases h2 : off + 4 + leBytesToNat ((buf.drop off).take 4) ≤ buf.length
      · have hrbc := readBytesChecked_eq buf (leBytesToNat ((buf.drop off).take 4))
          (off + 4) (by omega)
        simp only [if_pos h2, hrbc, ih (off + 4 + leBytesToNat ((buf.drop off).take 4))]
      · simp only [if_neg h2]
    · simp only [decodeBinCheckedAux, decodeBinAux, if_neg h1]

/-- Every byte access of `decode_plain` is in bounds: the `get?`-instrumented
decoder never returns `none`, on every input. -/
theorem decode_plainChecked_eq (buf : List Nat) (phys : PhysicalType) (d q : Nat) :
    decode_plainChecked buf phys d q = some (decode_plain buf phys d q) := by
  cases phys with
  | int32 => exact decodeFixedCheckedAux_eq buf 4 _ _ 0
  | int64 => exact decodeFixedCheckedAux_eq buf 8 _ _ 0
  | float => exact decodeFixedCheckedAux_eq buf 4 _ _ 0
  | double => exact decodeFixedCheckedAux_eq buf 8 _ _ 0
  | boolean => exact decodeBoolCheckedAux_eq buf _ 0
  | byteArray => exact decodeBinCheckedAux_eq buf _ 0
  | int96 => rfl
  | fixedLenByteArray k => rfl

/-! ## The aggregator stops once the quota is reached -/

theorem readPagesAux_append (phys : PhysicalType) : ∀ (ps qs : List PageModel)
    (total limit : Nat), limit ≤ (readPagesAux phys ps total limit).2 →
    readPagesAux phys (ps ++ qs) total limit = readPagesAux phys ps total limit := by
  intro ps
  induction ps with
  | nil =>
    intro qs total limit h
    simp only [readPagesAux] at h
    cases qs with
    | nil => simp
    | cons p qs =>
      simp only [List.nil_append, readPagesAux, if_pos h]
  | cons p ps ih =>
    intro qs total limit h
    by_cases hc : limit ≤ total
    · simp only [List.cons_append, readPagesAux, if_pos hc]
    · have h' : limit ≤ (readPagesAux phys ps
          (total + (decode_plain p.buffer phys p.numValues (limit - total)).2) limit).2 := by
        simp only [readPagesAux, if_neg hc] at h
        exact h
      simp only [List.cons_append, readPagesAux, if_neg hc, List.append_eq, ih qs _ limit h']

/-! ## Claim theorems -/

/-- C1: for every `ColumnType` t (64-bit integers restricted to the exact
double range, per the claim's lossy-numeric exclusion) and every value
sequence `vs` of type t, decoding the buffer produced by encoding `vs`,
with declared count and quota both `len vs`, yields exactly `vs`. -/
theorem claim_C1_round_trip (t : ColType) (vs : List PValue)
    (hok : ∀ v ∈ vs, okValue t v) :
    decode_plain (encodeColumn t vs) t.physicalType vs.length vs.length = (vs, vs.length) := by
  have h := decode_take_encode t vs hok (encodeColumn t vs).length vs.length vs.length
    (le_refl _)
  rw [List.take_length] at h
  have havail := availRecords_full t vs hok
  have hm : min (min vs.length vs.length)
      (availRecords t.physicalType (encodeColumn t vs)) = vs.length := by omega
  rw [hm, List.take_length] at h
  exact h

theorem claim_C1_round_trip_witness :
    (∀ v ∈ [PValue.vbool true, PValue.vbool false], okValue ColType.boolean v)
    ∧ decode_plain (encodeColumn ColType.boolean [PValue.vbool true, PValue.vbool false])
        ColType.boolean.physicalType 2 2 = ([PValue.vbool true, PValue.vbool false], 2) :=
  ⟨by simp [okValue],
   claim_C1_round_trip ColType.boolean [PValue.vbool true, PValue.vbool false]
     (by simp [okValue])⟩

/-- C2 counterexample: on the valid two-record Int32 buffer (a prefix of
itself), decoding with declared count 2 and quota 1 returns count 1, not
the number of complete records in the prefix (2) — the claim's count
equation fails once the quota caps the decode. -/
theorem claim_C2_counterexample :
    encodeColumn ColType.int32 [PValue.vi32 1, PValue.vi32 2] = [1, 0, 0, 0, 2, 0, 0, 0]
    ∧ availRecords PhysicalType.int32 [1, 0, 0, 0, 2, 0, 0, 0] = 2
    ∧ (decode_plain [1, 0, 0, 0, 2, 0, 0, 0] PhysicalType.int32 2 1).2 = 1
    ∧ (1 : Nat) ≠ 2 := by decide

/-- C2 amended: decoding any prefix (`take p`) of a valid buffer never reads
past the prefix's end (the `get?`-instrumented decoder returns `some`), and
returns count `min declared (min quota (complete records in the prefix))`;
for declared count at most `len vs`, the values below the count are exactly
the original values. -/
theorem claim_C2_truncation (t : ColType) (vs : List PValue)
    (hok : ∀ v ∈ vs, okValue t v) (p d q : Nat) (hd : d ≤ vs.length) :
    decode_plainChecked ((encodeColumn t vs).take p) t.physicalType d q
      = some (decode_plain ((encodeColumn t vs).take p) t.physicalType d q)
    ∧ decode_plain ((encodeColumn t vs).take p) t.physicalType d q
      = (vs.take (min (min d q) (availRecords t.physicalType ((encodeColumn t vs).take p))),
         min (min d q) (availRecords t.physicalType ((encodeColumn t vs).take p))) :=
  ⟨decode_plainChecked_eq _ _ _ _, decode_take_encode t vs hok p d q hd⟩

theorem claim_C2_truncation_witness :
    (2 : Nat) ≤ ([PValue.vbool true, PValue.vbool false] : List PValue).length
    ∧ decode_plain ((encodeColumn ColType.boolean
          [PValue.vbool true, PValue.vbool false]).take 1)
        ColType.boolean.physicalType 2 5
      = ([PValue.vbool true, PValue.vbool false], 2) := by
  refine ⟨by decide, ?_⟩
  have h := (claim_C2_truncation ColType.boolean [PValue.vbool true, PValue.vbool false]
    (by simp [okValue]) 1 2 5 (by decide)).2
  rw [h]
  decide

/-- C3: the returned count never exceeds `min declared quota` and always
equals the number of values appended; and for a quota `q` smaller than the
declared count on a buffer holding all declared values, the count is
exactly `q` and the first `q` values agree with a full decode performed
with any quota `q2 ≥ len vs`. -/
theorem claim_C3_quota :
    (∀ (buf : List Nat) (phys : PhysicalType) (d q : Nat),
      (decode_plain buf phys d q).2 ≤ min d q
      ∧ (decode_plain buf phys d q).1.length = (decode_plain buf phys d q).2)
    ∧ (∀ (t : ColType) (vs : List PValue), (∀ v ∈ vs, okValue t v) →
       ∀ q q2 : Nat, q < vs.length → vs.length ≤ q2 →
        (decode_plain (encodeColumn t vs) t.physicalType vs.length q).2 = q
        ∧ (decode_plain (encodeColumn t vs) t.physicalType vs.length q).1
          = (decode_plain (encodeColumn t vs) t.physicalType vs.length q2).1.take q) := by
  constructor
  · intro buf phys d q
    exact decode_plain_count buf phys d q
  · intro t vs hok q q2 hq hq2
    have havail := availRecords_full t vs hok
    have h1 := decode_take_encode t vs hok (encodeColumn t vs).length vs.length q (le_refl _)
    have h2 := decode_take_encode t vs hok (encodeColumn t vs).length vs.length q2 (le_refl _)
    rw [List.take_length] at h1 h2
    have hm1 : min (min vs.length q) (availRecords t.physicalType (encodeColumn t vs))
        = q := by omega
    have hm2 : min (min vs.length q2) (availRecords t.physicalType (encodeColumn t vs))
        = vs.length := by omega
    rw [hm1] at h1
    rw [hm2, List.take_length] at h2
    constructor
    · rw [h1]
    · rw [h1, h2]

theorem claim_C3_quota_witness :
    (1 : Nat) < ([PValue.vbool true, PValue.vbool false] : List PValue).length
    ∧ ([PValue.vbool true, PValue.vbool false] : List PValue).length ≤ 2
    ∧ (decode_plain (encodeColumn ColType.boolean [PValue.vbool true, PValue.vbool false])
        ColType.boolean.physicalType 2 1).2 = 1 :=
  ⟨by decide, by decide,
   (claim_C3_quota.2 ColType.boolean [PValue.vbool true, PValue.vbool false]
     (by simp [okValue]) 1 2 (by decide) (by decide)).1⟩

/-- C4: encoding `n` booleans yields exactly `(n + 7) / 8` bytes, value `i`
is stored LSB-first as bit `i % 8` of byte `i / 8`, all bits beyond `n` are
zero, and decoding that buffer with declared count `n` and quota at least
`n` reproduces the sequence bit-for-bit. -/
theorem claim_C4_boolean_packing (vals : List Bool) (q : Nat) (hq : vals.length ≤ q) :
    (encode_bool vals).length = (vals.length + 7) / 8
    ∧ (∀ i, i < vals.length →
        Nat.testBit ((encode_bool vals).getD (i / 8) 0) (i % 8) = vals.getD i false)
    ∧ (∀ j, vals.length ≤ j →
        Nat.testBit ((encode_bool vals).getD (j / 8) 0) (j % 8) = false)
    ∧ decode_plain (encode_bool vals) PhysicalType.boolean vals.length q
      = (vals.map PValue.vbool, vals.length) := by
  refine ⟨length_encode_bool vals, ?_, ?_, ?_⟩
  · intro i hi
    rw [encode_bool_testBit]
    simp [hi]
  · intro j hj
    rw [encode_bool_testBit]
    have hnj : ¬ (j < vals.length) := by omega
    simp [hnj]
  · have hok : ∀ v ∈ vals.map PValue.vbool, okValue ColType.boolean v := by
      intro v hv
      rcases List.mem_map.mp hv with ⟨b, hb, rfl⟩
      simp [okValue]
    have hmm : (vals.map PValue.vbool).map projBool = vals := by
      rw [List.map_map]
      have hid : ∀ b ∈ vals, (projBool ∘ PValue.vbool) b = id b := fun b _ => rfl
      rw [List.map_congr_left hid, List.map_id]
    have henc : encodeColumn ColType.boolean (vals.map PValue.vbool) = encode_bool vals := by
      simp only [encodeColumn, hmm]
    have hlen2 : (vals.map PValue.vbool).length = vals.length := List.length_map ..
    have h := decode_take_encode ColType.boolean (vals.map PValue.vbool) hok
      (encodeColumn ColType.boolean (vals.map PValue.vbool)).length
      (vals.map PValue.vbool).length q (le_refl _)
    rw [List.take_length] at h
    simp only [ColType.physicalType, availRecords, henc] at h
    have hm : min (min (vals.map PValue.vbool).length q) (8 * (encode_bool vals).length)
        = vals.length := by
      rw [hlen2, length_encode_bool]
      omega
    rw [hm, List.take_of_length_le (le_of_eq hlen2), hlen2] at h
    exact h

theorem claim_C4_boolean_packing_witness :
    ([true, false, true] : List Bool).length ≤ 3
    ∧ decode_plain (encode_bool [true, false, true]) PhysicalType.boolean 3 3
      = ([PValue.vbool true, PValue.vbool false, PValue.vbool true], 3) :=
  ⟨by decide, (claim_C4_boolean_packing [true, false, true] 3 (by decide)).2.2.2⟩

/-- C5: during `ByteArray` decoding, a length-prefixed byte run that is not
valid UTF-8 is replaced, at its position, by the sentinel `"<binary>"`, and
decoding continues with the subsequent buffer contents (the offset advances
past the invalid bytes). -/
theorem claim_C5_utf8_fallback (chunk rest : List Nat) (d q : Nat)
    (hlen : chunk.length < 2 ^ 32) (hbad : validUtf8 chunk = false) (hq : 0 < min d q) :
    decode_plain (natToLeBytes 4 chunk.length ++ (chunk ++ rest)) PhysicalType.byteArray d q
      = (PValue.vstr binarySentinel :: (decodeBinList rest (min d q - 1)).1,
         (decodeBinList rest (min d q - 1)).2 + 1) := by
  obtain ⟨k, hk⟩ : ∃ k, min d q = k + 1 := ⟨min d q - 1, by omega⟩
  simp only [decode_plain]
  rw [hk]
  simp only [Nat.add_sub_cancel]
  rw [decodeBinAux_eq_list, List.drop_zero]
  have hpfx : (natToLeBytes 4 chunk.length).length = 4 := length_natToLeBytes ..
  have hlenfull : (natToLeBytes 4 chunk.length ++ (chunk ++ rest)).length
      = 4 + (chunk.length + rest.length) := by simp [hpfx]
  simp only [decodeBinList]
  rw [if_pos (by omega)]
  have htake : (natToLeBytes 4 chunk.length ++ (chunk ++ rest)).take 4
      = natToLeBytes 4 chunk.length := List.take_left' hpfx
  have hleb : leBytesToNat ((natToLeBytes 4 chunk.length ++ (chunk ++ rest)).take 4)
      = chunk.length := by
    rw [htake, leBytesToNat_natToLeBytes]
    apply Nat.mod_eq_of_lt
    norm_num at hlen ⊢
    exact hlen
  rw [hleb, if_pos (by omega)]
  have hdrop4 : (natToLeBytes 4 chunk.length ++ (chunk ++ rest)).drop 4 = chunk ++ rest :=
    List.drop_left' hpfx
  have hchunk : ((natToLeBytes 4 chunk.length ++ (chunk ++ rest)).drop 4).take chunk.length
      = chunk := by
    rw [hdrop4]
    exact List.take_left chunk rest
  have hdroprest : (natToLeBytes 4 chunk.length ++ (chunk ++ rest)).drop (4 + chunk.length)
      = rest := by
    rw [drop_append_big _ _ _ (by omega), hpfx]
    have h4 : 4 + chunk.length - 4 = chunk.length := by omega
    rw [h4]
    exact List.drop_left chunk rest
  rw [hchunk, hdroprest]
  simp [hbad]

theorem claim_C5_utf8_fallback_witness :
    ([255] : List Nat).length < 2 ^ 32 ∧ validUtf8 [255] = false ∧ (0 : Nat) < min 1 1
    ∧ decode_plain (natToLeBytes 4 ([255] : List Nat).length ++ ([255] ++ []))
        PhysicalType.byteArray 1 1
      = (PValue.vstr binarySentinel :: (decodeBinList [] (min 1 1 - 1)).1,
         (decodeBinList [] (min 1 1 - 1)).2 + 1) :=
  ⟨by decide, by decide, by decide,
   claim_C5_utf8_fallback [255] [] 1 1 (by decide) (by decide) (by decide)⟩

/-- C6: the read-direction type mapper returns exactly the spec's table —
`Int64` with any `Timestamp` logical type maps to `"timestamp"`, `Int32` to
`"int32"`, `Int64` otherwise to `"int64"`, `Float` to `"float32"`, `Double`
to `"float64"`, `Boolean` to `"boolean"`, `ByteArray` to `"string"`, and
every combination not explicitly covered to `"binary"`. -/
theorem claim_C6_type_label :
    (∀ u adj, type_label PhysicalType.int64
        (some (PrimitiveLogicalType.timestamp u adj)) = "timestamp")
    ∧ (∀ log, type_label PhysicalType.int32 log = "int32")
    ∧ (∀ log, (∀ u adj, log ≠ some (PrimitiveLogicalType.timestamp u adj)) →
        type_label PhysicalType.int64 log = "int64")
    ∧ (∀ log, type_label PhysicalType.float log = "float32")
    ∧ (∀ log, type_label PhysicalType.double log = "float64")
    ∧ (∀ log, type_label PhysicalType.boolean log = "boolean")
    ∧ (∀ log, type_label PhysicalType.byteArray log = "string")
    ∧ (∀ log, type_label PhysicalType.int96 log = "binary")
    ∧ (∀ n log, type_label (PhysicalType.fixedLenByteArray n) log = "binary") := by
  refine ⟨fun u adj => rfl, ?_, ?_, ?_, ?_, ?_, ?_, ?_, ?_⟩
  · intro log
    cases log with
    | none => rfl
    | some l => cases l <;> rfl
  · intro log h
    cases log with
    | none => rfl
    | some l =>
      cases l with
      | timestamp u adj => exact absurd rfl (h u adj)
      | _ => rfl
  · intro log
    cases log with
    | none => rfl
    | some l => cases l <;> rfl
  · intro log
    cases log with
    | none => rfl
    | some l => cases l <;> rfl
  · intro log
    cases log with
    | none => rfl
    | some l => cases l <;> rfl
  · intro log
    cases log with
    | none => rfl
    | some l => cases l <;> rfl
  · intro log
    cases log with
    | none => rfl
    | some l => cases l <;> rfl
  · intro n log
    cases log with
    | none => rfl
    | some l => cases l <;> rfl

theorem claim_C6_type_label_witness :
    (∀ u adj, some PrimitiveLogicalType.string
        ≠ some (PrimitiveLogicalType.timestamp u adj))
    ∧ type_label PhysicalType.int64 (some PrimitiveLogicalType.string) = "int64" :=
  ⟨fun u adj => by simp,
   claim_C6_type_label.2.2.1 (some PrimitiveLogicalType.string) (fun u adj => by simp)⟩

/-- C7: the write-direction type mapper is case-sensitive and maps the ten
recognized labels as specified, with every other string defaulting to
`Str`. -/
theorem claim_C7_label_mapping :
    ColType.ofLabel "int32" = ColType.int32
    ∧ ColType.ofLabel "int64" = ColType.int64
    ∧ ColType.ofLabel "float32" = ColType.float32
    ∧ ColType.ofLabel "float" = ColType.float32
    ∧ ColType.ofLabel "float64" = ColType.float64
    ∧ ColType.ofLabel "double" = ColType.float64
    ∧ ColType.ofLabel "boolean" = ColType.boolean
    ∧ ColType.ofLabel "bool" = ColType.boolean
    ∧ ColType.ofLabel "timestamp" = ColType.timestampMillis
    ∧ ColType.ofLabel "timestamp_millis" = ColType.timestampMillis
    ∧ ColType.ofLabel "Int32" = ColType.str
    ∧ (∀ s : String, s ∉ (["int32", "int64", "float32", "float", "float64", "double",
        "boolean", "bool", "timestamp", "timestamp_millis"] : List String) →
        ColType.ofLabel s = ColType.str) := by
  refine ⟨rfl, rfl, rfl, rfl, rfl, rfl, rfl, rfl, rfl, rfl, rfl, ?_⟩
  intro s hs
  simp only [List.mem_cons, List.not_mem_nil, or_false, not_or] at hs
  unfold ColType.ofLabel
  split <;> simp_all

theorem claim_C7_label_mapping_witness :
    ("Float32" : String) ∉ (["int32", "int64", "float32", "float", "float64", "double",
        "boolean", "bool", "timestamp", "timestamp_millis"] : List String)
    ∧ ColType.ofLabel "Float32" = ColType.str :=
  ⟨by decide, claim_C7_label_mapping.2.2.2.2.2.2.2.2.2.2.2 "Float32" (by decide)⟩

/-- C8 counterexample: a host value that is not of the expected kind for a
`Boolean` column — the JS number 1 — is encoded via JS truthiness as
`true`, not substituted by the type's zero value `false` as the claim
states. -/
theorem claim_C8_counterexample :
    JSValue.asF64 (JSValue.jsNum 1) ≠ none
    ∧ coerceBool (JSValue.jsNum 1) = true ∧ true ≠ false := by decide

/-- C8 amended: the encoder never fails on individual values — for numeric
columns a missing or non-number host value is substituted by 0, for `Str`
columns a missing or non-string host value by the empty string; `Boolean`
columns, however, coerce by JS truthiness, so a missing value yields
`false` but a truthy non-boolean value encodes as `true`. -/
theorem claim_C8_encode_defaults :
    (∀ v : JSValue, v.asF64 = none →
        coerceI32 v = 0 ∧ coerceI64 v = 0 ∧ coerceF64 v = 0)
    ∧ (∀ v : JSValue, v.asString = none → coerceStr v = [])
    ∧ (∀ v : JSValue, coerceBool v = v.isTruthy)
    ∧ coerceBool JSValue.undef = false
    ∧ coerceI32 JSValue.undef = 0 ∧ coerceStr JSValue.undef = [] := by
  refine ⟨?_, ?_, ?_, ?_, ?_, ?_⟩
  · intro v h
    simp only [coerceI32, coerceI64, coerceF64, h, Option.getD_none]
    decide
  · intro v h
    simp [coerceStr, h]
  · intro v
    rfl
  · rfl
  · decide
  · rfl

theorem claim_C8_encode_defaults_witness :
    JSValue.asString (JSValue.jsNum 1) = none ∧ coerceStr (JSValue.jsNum 1) = [] :=
  ⟨rfl, claim_C8_encode_defaults.2.1 (JSValue.jsNum 1) rfl⟩

/-- C9: the aggregator decodes pages in order with the remaining quota,
stops as soon as the quota is reached, and never decodes a later page once
it is; in the 400/400/200 three-page scenario with quota 500, page 1
decodes fully (400), page 2 partially (100), and the result is identical
for every possible third page — page 3 is never touched. -/
theorem claim_C9_preview_aggregation :
    (∀ (phys : PhysicalType) (ps qs : List PageModel) (total limit : Nat),
        limit ≤ (readPagesAux phys ps total limit).2 →
        readPagesAux phys (ps ++ qs) total limit = readPagesAux phys ps total limit)
    ∧ (decode_plain (List.replicate 50 0) PhysicalType.boolean 400 500).2 = 400
    ∧ (decode_plain (List.replicate 50 0) PhysicalType.boolean 400 100).2 = 100
    ∧ (readPagesAux PhysicalType.boolean
        [⟨400, List.replicate 50 0⟩, ⟨400, List.replicate 50 0⟩] 0 500).2 = 500
    ∧ (∀ p3 : PageModel, readPagesAux PhysicalType.boolean
        [⟨400, List.replicate 50 0⟩, ⟨400, List.replicate 50 0⟩, p3] 0 500
        = readPagesAux PhysicalType.boolean
            [⟨400, List.replicate 50 0⟩, ⟨400, List.replicate 50 0⟩] 0 500) := by
  have hc : ∀ d q : Nat, (decode_plain (List.replicate 50 (0 : Nat)) PhysicalType.boolean d q).2
      = min (min d q) 400 := by
    intro d q
    simp only [decode_plain]
    rw [decodeBoolAux_eq]
    simp [List.length_replicate]
  have htot : (readPagesAux PhysicalType.boolean
      [⟨400, List.replicate 50 0⟩, ⟨400, List.replicate 50 0⟩] 0 500).2 = 500 := by
    set B := List.replicate 50 (0 : Nat) with hB
    simp [readPagesAux, hc]
  refine ⟨readPagesAux_append, by rw [hc]; decide, by rw [hc]; decide, htot, ?_⟩
  intro p3
  have happ := readPagesAux_append PhysicalType.boolean
    [⟨400, List.replicate 50 0⟩, ⟨400, List.replicate 50 0⟩] [p3] 0 500 (by rw [htot])
  exact happ

theorem claim_C9_preview_aggregation_witness :
    (500 : Nat) ≤ (readPagesAux PhysicalType.boolean [] 500 500).2
    ∧ readPagesAux PhysicalType.boolean ([] ++ [⟨1, [0]⟩]) 500 500
      = readPagesAux PhysicalType.boolean [] 500 500 :=
  ⟨by decide,
   claim_C9_preview_aggregation.1 PhysicalType.boolean [] [⟨1, [0]⟩] 500 500 (by decide)⟩

/-- C10: the plain decoder is total over arbitrary inputs and never indexes
out of bounds — the `get?`-instrumented decoder returns `some` of the plain
result on every buffer, physical type, declared count and quota — and any
physical type outside the handled variants (`Int96`,
`FixedLenByteArray`) returns count 0 with no values appended. -/
theorem claim_C10_decoder_totality :
    (∀ (buf : List Nat) (phys : PhysicalType) (d q : Nat),
        decode_plainChecked buf phys d q = some (decode_plain buf phys d q))
    ∧ (∀ (buf : List Nat) (d q : Nat), decode_plain buf PhysicalType.int96 d q = ([], 0))
    ∧ (∀ (buf : List Nat) (k d q : Nat),
        decode_plain buf (PhysicalType.fixedLenByteArray k) d q = ([], 0)) :=
  ⟨decode_plainChecked_eq, fun _ _ _ => rfl, fun _ _ _ _ => rfl⟩

end TinyParquet
